import Mathlib

/-!
Verification of the time-series aggregation engine of `dubsviewer.py`.

The script operates on a pandas DataFrame with columns `name` (string),
`timestamp` (datetime, parsed from the fixed format `%Y-%m-%d %H:%M:%S`)
and `score` (integer).  We embed a DataFrame row as an `Obs` record with an
integer timestamp (datetimes are totally ordered instants; only their order
and differences matter to the code), and each aggregation block of the
script as a pure function on `List Obs`, following the pandas calls
operation by operation.
-/

namespace Dubs

/-! ### Generic list helpers mirroring pandas primitives -/

/-- Maximum of a list of integers, `none` on the empty list
(pandas `Series.max()` returns NaN on an empty series; every use below
guards for emptiness exactly where the script does). -/
def maxList? : List Int → Option Int
  | [] => none
  | x :: xs => some (xs.foldl max x)

/-- Minimum of a list of integers, `none` on the empty list. -/
def minList? : List Int → Option Int
  | [] => none
  | x :: xs => some (xs.foldl min x)

/-! ### Sorted deduplication (pandas group keys / sorted unique index)

`pandas.groupby` sorts its group keys ascending, and a pivot table's index
and columns are the sorted distinct labels.  `sortDedup` computes exactly
that: the strictly ascending list of distinct elements. -/

/-- Code-point comparison of character lists: the lexicographic order
Python (and hence pandas, for its string group keys) uses. -/
def charListLt : List Char → List Char → Bool
  | [], [] => false
  | [], _ :: _ => true
  | _ :: _, [] => false
  | c :: cs, d :: ds => if c = d then charListLt cs ds else decide (c.toNat < d.toNat)

/-- Lexicographic code-point order on strings. -/
def strLtB (a b : String) : Bool := charListLt a.toList b.toList

/-- The integer order as a Boolean comparator. -/
def intLtB (a b : Int) : Bool := decide (a < b)

/-- A Boolean comparator that is a strict total order: transitive,
irreflexive, and total on distinct elements. -/
def StrictOrderB {α : Type} (lt : α → α → Bool) : Prop :=
  (∀ a b c, lt a b = true → lt b c = true → lt a c = true) ∧
  (∀ a, lt a a = false) ∧
  (∀ a b : α, a ≠ b → lt a b = true ∨ lt b a = true)

/-- Ordered insertion without duplicates. -/
def insSorted {α : Type} [DecidableEq α] (lt : α → α → Bool) (x : α) :
    List α → List α
  | [] => [x]
  | y :: ys =>
    if x = y then y :: ys
    else if lt x y then x :: y :: ys
    else y :: insSorted lt x ys

/-- Strictly ascending (with respect to `lt`) list of the distinct
elements of `l`. -/
def sortDedup {α : Type} [DecidableEq α] (lt : α → α → Bool) (l : List α) :
    List α :=
  l.foldr (insSorted lt) []

/-- Insert `x` in front of the first element whose key does not exceed
`k x` (stable insertion for a descending order). -/
def insDescBy {α : Type} (k : α → Int) (x : α) : List α → List α
  | [] => [x]
  | y :: ys => if k y ≤ k x then x :: y :: ys else y :: insDescBy k x ys

/-- Stable sort, descending by the integer key `k`. -/
def sortDescBy {α : Type} (k : α → Int) : List α → List α
  | [] => []
  | x :: xs => insDescBy k x (sortDescBy k xs)

/-- Stable insertion for an ascending order by key. -/
def insAscBy {α : Type} (k : α → Int) (x : α) : List α → List α
  | [] => [x]
  | y :: ys => if k x ≤ k y then x :: y :: ys else y :: insAscBy k x ys

/-- Stable sort, ascending by the integer key `k`
(`group.sort_values('timestamp')`). -/
def sortAscBy {α : Type} (k : α → Int) : List α → List α
  | [] => []
  | x :: xs => insAscBy k x (sortAscBy k xs)

/-! ### Data model

One DataFrame row of `leaderboard_data.csv` after the load block:
`name` (string), `timestamp` (instant, embedded as an integer), `score`
(integer, the renamed `number_int` column). -/

structure Obs where
  name : String
  ts : Int
  score : Int
deriving DecidableEq

/-! ### The input boundary (lines 8-11)

`pd.read_csv` delivers raw rows; `pd.to_datetime(df['timestamp'],
format="%Y-%m-%d %H:%M:%S")` is called with the default `errors='raise'`,
so the first unparseable timestamp raises an exception and the whole
script run is aborted: no row is dropped and no partial result is
produced. -/

/-- A raw CSV row before timestamp parsing. -/
structure RawRow where
  name : String
  tsRaw : String
  score : Int
deriving DecidableEq

def digitVal (c : Char) : Int := (c.toNat : Int) - 48

/-- Fixed-format parse of `%Y-%m-%d %H:%M:%S`, the semantics of the
`pd.to_datetime` call: 19 characters, digits in the date/time positions,
the literal separators (codes 45 `-`, 32 space, 58 `:`), and field ranges
checked; the result is a linearised instant (a simplified but strictly
monotone encoding — only order and differences of instants matter to the
engine). Any other string fails to parse. -/
def parseTimestamp (s : String) : Option Int :=
  match s.toList with
  | [y1, y2, y3, y4, a1, m1, m2, a2, d1, d2, a3, h1, h2, a4, n1, n2, a5, c1, c2] =>
    if ([y1, y2, y3, y4, m1, m2, d1, d2, h1, h2, n1, n2, c1, c2].all Char.isDigit
        && a1.toNat == 45 && a2.toNat == 45 && a3.toNat == 32
        && a4.toNat == 58 && a5.toNat == 58) then
      let year := 1000 * digitVal y1 + 100 * digitVal y2 + 10 * digitVal y3 + digitVal y4
      let month := 10 * digitVal m1 + digitVal m2
      let day := 10 * digitVal d1 + digitVal d2
      let hour := 10 * digitVal h1 + digitVal h2
      let minute := 10 * digitVal n1 + digitVal n2
      let sec := 10 * digitVal c1 + digitVal c2
      if 1 ≤ month ∧ month ≤ 12 ∧ 1 ≤ day ∧ day ≤ 31 then
        some (((((year * 12 + (month - 1)) * 31 + (day - 1)) * 24 + hour) * 60
          + minute) * 60 + sec)
      else none
    else none
  | _ => none

/-- The load block: parse every row's timestamp.  `errors='raise'` means
the first failure raises, aborting the run; on success all rows are kept
in order. -/
def loadTable : List RawRow → Except String (List Obs)
  | [] => .ok []
  | r :: rs =>
    match parseTimestamp r.tsRaw with
    | none => .error ("time data " ++ r.tsRaw ++ " does not match format")
    | some t =>
      match loadTable rs with
      | .error e => .error e
      | .ok os => .ok (⟨r.name, t, r.score⟩ :: os)

def isOkB {ε α : Type} : Except ε α → Bool
  | .ok _ => true
  | .error _ => false

/-! ### The windowed gain leaderboard, `get_gain_leaderboard` (lines 22-42) -/

/-- `df[df['timestamp'] >= cutoff]` with `cutoff = now - time_window`,
or the whole frame when no window is given. -/
def timeFiltered (obs : List Obs) (w : Option Int) (now : Int) : List Obs :=
  match w with
  | some d => obs.filter (fun o => decide (now - d ≤ o.ts))
  | none => obs

/-- `df_filtered[df_filtered['name'].isin(filtered_names)]`, applied only
when the allow-list is non-empty (the script tests `if filtered_names:`). -/
def nameFiltered (l : List Obs) (names : List String) : List Obs :=
  if names.isEmpty then l else l.filter (fun o => names.contains o.name)

/-- `df_filtered['name'].value_counts()` evaluated at one player. -/
def countName (l : List Obs) (p : String) : Nat :=
  (l.filter (fun o => o.name == p)).length

/-- Keep only rows of players with `counts > 1` (lines 32-34). -/
def survivors (l : List Obs) : List Obs :=
  l.filter (fun o => decide (1 < countName l o.name))

/-- The rows of one player's group. -/
def obsOf (l : List Obs) (p : String) : List Obs :=
  l.filter (fun o => o.name == p)

/-- `groupby("name")` group keys: the distinct names, sorted ascending. -/
def groupNames (l : List Obs) : List String :=
  sortDedup strLtB (l.map (·.name))

/-- `groupby("name")["score"].max()` at one group key (total on the group
keys; 0 is never read because a group is non-empty). -/
def maxScoreD (l : List Obs) (p : String) : Int :=
  (maxList? ((obsOf l p).map (·.score))).getD 0

/-- `groupby("name")["score"].min()` at one group key. -/
def minScoreD (l : List Obs) (p : String) : Int :=
  (minList? ((obsOf l p).map (·.score))).getD 0

/-- The aligned series `latest - earliest`: per group key,
max minus min of the group's scores. -/
def gainSeries (l : List Obs) : List (String × Int) :=
  (groupNames l).map (fun p => (p, maxScoreD l p - minScoreD l p))

/-- A pandas column label: either a string or (for an unnamed value column
materialised by `reset_index`) the integer 0. -/
inductive Label where
  | str (s : String)
  | num (n : Nat)
deriving DecidableEq

/-- The shape `get_gain_leaderboard` returns: column labels plus the
(name, gain) rows. -/
structure GainDF where
  cols : List Label
  rows : List (String × Int)
deriving DecidableEq

def renameLabel (old new l : Label) : Label := if l = old then new else l

/-- Time filter then name filter (lines 23-30). -/
def filteredObs (obs : List Obs) (w : Option Int) (now : Int)
    (names : List String) : List Obs :=
  nameFiltered (timeFiltered obs w now) names

/-- `get_gain_leaderboard`.  On an empty surviving frame the script
returns `pd.DataFrame(columns=["name", "Gain"])`.  Otherwise
`latest - earliest` is a Series whose pandas name follows the rule
"kept iff both operand names agree": `latest` and `earliest` are both the
`"score"` aggregation, so the subtraction keeps the name `"score"`,
`reset_index()` materialises columns `["name", "score"]` (an unnamed
series would instead give the integer label 0), and
`rename(columns={0: "Gain"})` renames the label 0 wherever it occurs. -/
def gainLeaderboard (obs : List Obs) (w : Option Int) (now : Int)
    (names : List String) : GainDF :=
  let l := survivors (filteredObs obs w now names)
  if l.isEmpty then ⟨[Label.str "name", Label.str "Gain"], []⟩
  else
    let subName : Option String :=
      if ("score" : String) = "score" then some "score" else none
    let preCols : List Label :=
      [Label.str "name",
       match subName with | some s => Label.str s | none => Label.num 0]
    ⟨preCols.map (renameLabel (Label.num 0) (Label.str "Gain")),
     sortDescBy (fun r => r.2) (gainSeries l)⟩

/-! ### The rolling max-gain detector (lines 190-207) -/

/-- `group[(group['timestamp'] > row['timestamp']) & (group['timestamp']
<= window_end)]` with `window_end = row['timestamp'] + window`. -/
def futureWindow (g : List Obs) (t w : Int) : List Obs :=
  g.filter (fun o => decide (t < o.ts) && decide (o.ts ≤ t + w))

/-- One anchor's candidate gain: `future_window['score'].max() -
row['score']` when the forward window is non-empty, nothing otherwise. -/
def candAt (g : List Obs) (w : Int) (o : Obs) : Option Int :=
  (maxList? ((futureWindow g o.ts w).map (·.score))).map (fun m => m - o.score)

/-- The loop body: `if gain > max_gain: max_gain = gain`, guarded by
`if not future_window.empty`. -/
def rollingStep (g : List Obs) (w : Int) (mg : Int) (o : Obs) : Int :=
  match candAt g w o with
  | none => mg
  | some c => max mg c

/-- One player's chronologically sorted group,
`group.sort_values('timestamp')`. -/
def seriesOf (obs : List Obs) (p : String) : List Obs :=
  sortAscBy (·.ts) (obsOf obs p)

/-- The inner anchor scan: running maximum starting at `max_gain = 0`. -/
def rollingMaxGain (g : List Obs) (w : Int) : Int :=
  g.foldl (rollingStep g w) 0

/-- All anchor candidates of a group (the values the spec's running
maximum ranges over). -/
def candidates (g : List Obs) (w : Int) : List Int :=
  g.filterMap (candAt g w)

/-- The whole detector block: per group key, append `{'name': player,
'max_gain': max_gain}` when `max_gain > 0`, then
`sort_values('max_gain', ascending=False)`. -/
def detectRolling (obs : List Obs) (w : Int) : List (String × Int) :=
  sortDescBy (fun r => r.2)
    ((groupNames obs).filterMap (fun p =>
      let mg := rollingMaxGain (seriesOf obs p) w
      if 0 < mg then some (p, mg) else none))

/-! ### The progression resampler (lines 120-135)

`top20_names` ranks players by all-time max score; the cohort rows are
pivoted (`pivot_table(index="timestamp", columns="name", values="score",
aggfunc="max")`, whose index and columns are the sorted distinct labels),
sorted and forward-filled, negative cells are clamped to 0, and the frame
is melted to long form.  Missing cells (`NaN`) are embedded as `none`;
`melt` keeps them: the long frame has one row per (timestamp, player)
pair of the pivot grid. -/

/-- Forward fill down one pivot column, threading the last valid value
(`DataFrame.ffill`); a leading run of missing cells stays missing. -/
def ffillList : Option Int → List (Option Int) → List (Option Int)
  | _, [] => []
  | last, none :: rest => last :: ffillList last rest
  | _, some v :: rest => some v :: ffillList (some v) rest

/-- Group keys ranked by `groupby("name")["score"].max()
.sort_values(ascending=False)`. -/
def namesByMaxDesc (obs : List Obs) : List String :=
  sortDescBy (fun p => maxScoreD obs p) (groupNames obs)

/-- `... .head(n).index.tolist()`. -/
def topNames (obs : List Obs) (n : Nat) : List String :=
  (namesByMaxDesc obs).take n

/-- `df_top20 = df[df["name"].isin(top20_names)]`. -/
def cohortObs (obs : List Obs) : List Obs :=
  obs.filter (fun o => (topNames obs 20).contains o.name)

/-- The pivot index: sorted distinct timestamps of the pivoted rows. -/
def axisOf (l : List Obs) : List Int :=
  sortDedup intLtB (l.map (·.ts))

/-- The pivot columns: sorted distinct names of the pivoted rows. -/
def colsOf (l : List Obs) : List String :=
  groupNames l

/-- One pivot cell: `aggfunc="max"` over the rows of player `p` at
instant `t`, `NaN`/`none` when the player has no row at `t`. -/
def cell (l : List Obs) (p : String) (t : Int) : Option Int :=
  maxList? (((obsOf l p).filter (fun o => o.ts == t)).map (·.score))

/-- `df_pivot[df_pivot < 0] = 0`: a present negative value becomes 0, a
missing cell stays missing (`NaN < 0` is false). -/
def clampCell (v : Option Int) : Option Int :=
  v.map (fun s => if s < 0 then 0 else s)

/-- One raw pivot column, along the sorted axis. -/
def pivotCol (l : List Obs) (p : String) : List (Option Int) :=
  (axisOf l).map (cell l p)

/-- The column after `sort_index().ffill()`. -/
def filledCol (l : List Obs) (p : String) : List (Option Int) :=
  ffillList none (pivotCol l p)

/-- The column after the clamp step. -/
def clampedCol (l : List Obs) (p : String) : List (Option Int) :=
  (filledCol l p).map clampCell

/-- `df_pivot.reset_index().melt(id_vars=["timestamp"], var_name="Player",
value_name="Score")`: one `(timestamp, player, value)` row per grid cell,
stacked column by column. -/
def longForm (obs : List Obs) : List (Int × String × Option Int) :=
  let l := cohortObs obs
  (colsOf l).flatMap (fun p =>
    ((axisOf l).zip (clampedCol l p)).map (fun tv => (tv.1, p, tv.2)))

/-- Long-form rows read back as observations: rows carrying a value
become observations at the same instants, missing cells carry none. -/
def toObs (rows : List (Int × String × Option Int)) : List Obs :=
  rows.filterMap (fun r => r.2.2.map (fun s => ⟨r.2.1, r.1, s⟩))

/-- Timestamps of player `p`'s rows at or before `t`. -/
def tsUpTo (l : List Obs) (p : String) (t : Int) : List Int :=
  ((obsOf l p).filter (fun o => decide (o.ts ≤ t))).map (·.ts)

/-- Closed form of the forward fill: the cell at the player's latest
observed instant at or before `t`, missing before the first observation. -/
def filledAt (l : List Obs) (p : String) (t : Int) : Option Int :=
  match maxList? (tsUpTo l p t) with
  | none => none
  | some t0 => cell l p t0

/-- Closed form of one emitted long-form value (fill then clamp). -/
def emittedAt (l : List Obs) (p : String) (t : Int) : Option Int :=
  clampCell (filledAt l p t)

/-! ### The seasonal snapshot (lines 229-249)

`df_selected` keeps the selected users, `groupby("name")["score"].max()`
takes each player's all-time maximum, and the frame is sorted descending
on it; `insert(0, "Rank", index + 1)` attaches the 1-based dense rank.
In the integer embedding `pd.to_numeric(..., errors="coerce")`, the
`dropna` and the `astype("int64")` are identities, and the
thousands-separator formatting is presentation only. -/

def seasonalRows (obs : List Obs) (selected : List String) :
    List (Nat × String × Int) :=
  let l := obs.filter (fun o => selected.contains o.name)
  let sorted := sortDescBy (fun r => r.2)
    ((groupNames l).map (fun p => (p, maxScoreD l p)))
  sorted.enum.map (fun ir => (ir.1 + 1, ir.2.1, ir.2.2))

/-! ### The engine over its snapshot (frame conditions)

The script loads `df` once (lines 8-11) and every aggregation block only
reads it: `get_gain_leaderboard` filters into fresh frames (`df.copy()`,
boolean-mask selections), the rolling loop builds a fresh
`biggest_changes` list, the progression block mutates only the derived
`df_pivot`/`df_long` (the clamp assignment targets `df_pivot`), and the
seasonal block mutates only the derived `max_scores`.  No block assigns
to the module-level `df`, so each block maps the snapshot to a result and
leaves the snapshot as it was; the state-passing embedding below records
exactly that. -/

structure EngineState where
  snapshot : List Obs
deriving DecidableEq

/-- One engine invocation as selected by the UI widgets. -/
inductive Query where
  | gains (w : Option Int) (now : Int) (names : List String)
  | rolling (w : Int)
  | progression
  | seasonal (selected : List String)

inductive Answer where
  | gains (d : GainDF)
  | rolling (r : List (String × Int))
  | progression (r : List (Int × String × Option Int))
  | seasonal (r : List (Nat × String × Int))
deriving DecidableEq

/-- Run one aggregation block against the module state: the block's
result, together with the module state it leaves behind. -/
def runQuery (s : EngineState) : Query → Answer × EngineState
  | .gains w now names => (.gains (gainLeaderboard s.snapshot w now names), s)
  | .rolling w => (.rolling (detectRolling s.snapshot w), s)
  | .progression => (.progression (longForm s.snapshot), s)
  | .seasonal sel => (.seasonal (seasonalRows s.snapshot sel), s)

/-- Run a sequence of engine calls, threading the module state. -/
def runQueries (s : EngineState) : List Query → List Answer × EngineState
  | [] => ([], s)
  | q :: qs =>
    let r := runQuery s q
    let rest := runQueries r.2 qs
    (r.1 :: rest.1, rest.2)

/-! ### Concrete data used by counterexamples and witnesses -/

/-- A well-formed row followed by a row with an unparseable timestamp. -/
def badRows : List RawRow :=
  [⟨"A", "2024-01-01 00:00:00", 5⟩, ⟨"B", "not-a-date", 7⟩]

/-- One player with a single negative-score observation and one player
first observed at a later instant. -/
def obsNeg : List Obs := [⟨"A", 0, -5⟩, ⟨"B", 1, 10⟩]

/-- The spec's worked scenario: player A rises 10, 30, then 20 two hours
later; player B holds 5 (timestamps in hours). -/
def obsW : List Obs :=
  [⟨"A", 0, 10⟩, ⟨"A", 1, 30⟩, ⟨"A", 3, 20⟩, ⟨"B", 0, 5⟩, ⟨"B", 1, 5⟩]

/-! ### Supporting lemmas -/
theorem foldlMax_init_le (l : List Int) : ∀ a : Int, a ≤ l.foldl max a := by
  induction l with
  | nil => intro a; exact le_refl a
  | cons x xs ih =>
    intro a
    exact le_trans (le_max_left a x) (ih (max a x))

theorem foldlMax_le_of_mem (l : List Int) :
    ∀ a x : Int, x ∈ l → x ≤ l.foldl max a := by
  induction l with
  | nil => intro a x hx; cases hx
  | cons y ys ih =>
    intro a x hx
    rcases List.mem_cons.mp hx with h | h
    · subst h
      exact le_trans (le_max_right a x) (foldlMax_init_le ys (max a x))
    · exact ih (max a y) x h

theorem foldlMax_eq_init_or_mem (l : List Int) :
    ∀ a : Int, l.foldl max a = a ∨ l.foldl max a ∈ l := by
  induction l with
  | nil => intro a; exact Or.inl rfl
  | cons x xs ih =>
    intro a
    rcases ih (max a x) with h | h
    · by_cases hax : a ≤ x
      · right
        rw [List.foldl_cons, h, max_eq_right hax]
        exact List.mem_cons_self x xs
      · left
        rw [List.foldl_cons, h, max_eq_left (le_of_not_le hax)]
    · right
      rw [List.foldl_cons]
      exact List.mem_cons_of_mem x h

theorem foldlMax_max_comm (l : List Int) :
    ∀ a b : Int, l.foldl max (max a b) = max a (l.foldl max b) := by
  induction l with
  | nil => intro a b; rfl
  | cons x xs ih =>
    intro a b
    have : max (max a b) x = max a (max b x) := max_assoc a b x
    simp only [List.foldl_cons]
    rw [this, ih a (max b x)]

theorem maxList?_isSome_iff (l : List Int) : (maxList? l).isSome = true ↔ l ≠ [] := by
  cases l with
  | nil => simp [maxList?]
  | cons x xs => simp [maxList?]

theorem maxList?_mem {l : List Int} {m : Int} (h : maxList? l = some m) : m ∈ l := by
  cases l with
  | nil => simp [maxList?] at h
  | cons x xs =>
    simp only [maxList?, Option.some.injEq] at h
    rcases foldlMax_eq_init_or_mem xs x with h' | h'
    · rw [← h, h']; exact List.mem_cons_self x xs
    · rw [← h]; exact List.mem_cons_of_mem x h'

theorem le_of_maxList? {l : List Int} {m x : Int} (h : maxList? l = some m)
    (hx : x ∈ l) : x ≤ m := by
  cases l with
  | nil => cases hx
  | cons y ys =>
    simp only [maxList?, Option.some.injEq] at h
    subst h
    rcases List.mem_cons.mp hx with h' | h'
    · exact h' ▸ foldlMax_init_le ys y
    · exact foldlMax_le_of_mem ys y x h'

theorem maxList?_const {l : List Int} {s : Int} (hne : l ≠ [])
    (hall : ∀ x ∈ l, x = s) : maxList? l = some s := by
  cases l with
  | nil => exact absurd rfl hne
  | cons x xs =>
    have hx : x = s := hall x (List.mem_cons_self x xs)
    simp only [maxList?, Option.some.injEq]
    rcases foldlMax_eq_init_or_mem xs x with h | h
    · rw [h, hx]
    · have := hall _ (List.mem_cons_of_mem x h)
      rw [this]

theorem foldlMin_init_ge (l : List Int) : ∀ a : Int, l.foldl min a ≤ a := by
  induction l with
  | nil => intro a; exact le_refl a
  | cons x xs ih =>
    intro a
    exact le_trans (ih (min a x)) (min_le_left a x)

theorem foldlMin_ge_of_mem (l : List Int) :
    ∀ a x : Int, x ∈ l → l.foldl min a ≤ x := by
  induction l with
  | nil => intro a x hx; cases hx
  | cons y ys ih =>
    intro a x hx
    rcases List.mem_cons.mp hx with h | h
    · subst h
      exact le_trans (foldlMin_init_ge ys (min a x)) (min_le_right a x)
    · exact ih (min a y) x h

theorem foldlMin_eq_init_or_mem (l : List Int) :
    ∀ a : Int, l.foldl min a = a ∨ l.foldl min a ∈ l := by
  induction l with
  | nil => intro a; exact Or.inl rfl
  | cons x xs ih =>
    intro a
    rcases ih (min a x) with h | h
    · by_cases hax : x ≤ a
      · right
        rw [List.foldl_cons, h, min_eq_right hax]
        exact List.mem_cons_self x xs
      · left
        rw [List.foldl_cons, h, min_eq_left (le_of_not_le hax)]
    · right
      rw [List.foldl_cons]
      exact List.mem_cons_of_mem x h

theorem minList?_mem {l : List Int} {m : Int} (h : minList? l = some m) : m ∈ l := by
  cases l with
  | nil => simp [minList?] at h
  | cons x xs =>
    simp only [minList?, Option.some.injEq] at h
    rcases foldlMin_eq_init_or_mem xs x with h' | h'
    · rw [← h, h']; exact List.mem_cons_self x xs
    · rw [← h]; exact List.mem_cons_of_mem x h'

theorem minList?_le {l : List Int} {m x : Int} (h : minList? l = some m)
    (hx : x ∈ l) : m ≤ x := by
  cases l with
  | nil => cases hx
  | cons y ys =>
    simp only [minList?, Option.some.injEq] at h
    subst h
    rcases List.mem_cons.mp hx with h' | h'
    · exact h' ▸ foldlMin_init_ge ys y
    · exact foldlMin_ge_of_mem ys y x h'

theorem chain'_rel_head {α : Type} {R : α → α → Prop}
    (htrans : ∀ a b c, R a b → R b c → R a c) {a : α} {l : List α}
    (h : List.Chain' R (a :: l)) : ∀ x ∈ l, R a x := by
  induction l generalizing a with
  | nil => intro x hx; cases hx
  | cons y ys ih =>
    intro x hx
    have hay : R a y := List.chain'_cons.mp h |>.1
    rcases List.mem_cons.mp hx with h' | h'
    · exact h' ▸ hay
    · exact htrans _ _ _ hay (ih (List.chain'_cons.mp h |>.2) x h')

theorem mem_insSorted {α : Type} [DecidableEq α] (lt : α → α → Bool)
    (x : α) (l : List α) (a : α) :
    a ∈ insSorted lt x l ↔ a = x ∨ a ∈ l := by
  induction l with
  | nil => simp [insSorted]
  | cons y ys ih =>
    by_cases hxy : x = y
    · subst hxy
      simp only [insSorted, if_pos rfl]
      constructor
      · intro h; exact Or.inr h
      · intro h
        rcases h with h | h
        · exact h ▸ List.mem_cons_self x ys
        · exact h
    · by_cases hlt : lt x y = true
      · simp [insSorted, hxy, hlt, List.mem_cons]
      · simp only [insSorted, if_neg hxy, if_neg hlt, List.mem_cons, ih]
        tauto

theorem chain'_insSorted {α : Type} [DecidableEq α] {lt : α → α → Bool}
    (hso : StrictOrderB lt) (x : α) (l : List α)
    (h : List.Chain' (fun a b => lt a b = true) l) :
    List.Chain' (fun a b => lt a b = true) (insSorted lt x l) := by
  induction l with
  | nil => simp [insSorted]
  | cons y ys ih =>
    by_cases hxy : x = y
    · simpa [insSorted, hxy] using h
    · by_cases hlt : lt x y = true
      · simp only [insSorted, if_neg hxy, if_pos hlt]
        exact List.Chain'.cons hlt h
      · have hyx : lt y x = true := by
          rcases hso.2.2 x y hxy with h' | h'
          · exact absurd h' hlt
          · exact h'
        simp only [insSorted, if_neg hxy, if_neg hlt]
        have hys : List.Chain' (fun a b => lt a b = true) ys := List.Chain'.tail h
        refine List.chain'_cons'.mpr ⟨?_, ih hys⟩
        intro z hz
        have hzmem : z ∈ insSorted lt x ys := by
          cases hins : insSorted lt x ys with
          | nil => simp [hins] at hz
          | cons w ws =>
            rw [hins] at hz
            simp only [List.head?_cons, Option.mem_def, Option.some.injEq] at hz
            rw [← hz]
            exact List.mem_cons_self w ws
        rcases (mem_insSorted lt x ys z).mp hzmem with h' | h'
        · exact h' ▸ hyx
        · exact chain'_rel_head (R := fun a b => lt a b = true)
            (fun a b c hab hbc => hso.1 a b c hab hbc) h z h'

theorem mem_sortDedup {α : Type} [DecidableEq α] (lt : α → α → Bool)
    (l : List α) (a : α) :
    a ∈ sortDedup lt l ↔ a ∈ l := by
  induction l with
  | nil => simp [sortDedup]
  | cons x xs ih =>
    simp only [sortDedup, List.foldr_cons] at *
    rw [mem_insSorted, ih, List.mem_cons]

theorem chain'_sortDedup {α : Type} [DecidableEq α] {lt : α → α → Bool}
    (hso : StrictOrderB lt) (l : List α) :
    List.Chain' (fun a b => lt a b = true) (sortDedup lt l) := by
  induction l with
  | nil => simp [sortDedup]
  | cons x xs ih => exact chain'_insSorted hso x _ ih

theorem nodup_of_chain'_ltB {α : Type} {lt : α → α → Bool}
    (hso : StrictOrderB lt) :
    ∀ {l : List α}, List.Chain' (fun a b => lt a b = true) l → l.Nodup
  | [], _ => List.nodup_nil
  | x :: xs, h => by
    refine List.nodup_cons.mpr ⟨?_, nodup_of_chain'_ltB hso (List.Chain'.tail h)⟩
    intro hmem
    have h2 : lt x x = true := chain'_rel_head (R := fun a b => lt a b = true)
      (fun a b c hab hbc => hso.1 a b c hab hbc) h x hmem
    rw [hso.2.1 x] at h2
    cases h2

theorem nodup_sortDedup {α : Type} [DecidableEq α] {lt : α → α → Bool}
    (hso : StrictOrderB lt) (l : List α) :
    (sortDedup lt l).Nodup :=
  nodup_of_chain'_ltB hso (chain'_sortDedup hso l)

/-- Two strictly ascending lists with the same members are equal. -/
theorem chain'_ltB_ext {α : Type} {lt : α → α → Bool} (hso : StrictOrderB lt) :
    ∀ {l₁ l₂ : List α}, List.Chain' (fun a b => lt a b = true) l₁ →
      List.Chain' (fun a b => lt a b = true) l₂ →
      (∀ a, a ∈ l₁ ↔ a ∈ l₂) → l₁ = l₂
  | [], [], _, _, _ => rfl
  | [], y :: ys, _, _, hm => by
    have := (hm y).mpr (List.mem_cons_self y ys)
    cases this
  | x :: xs, [], _, _, hm => by
    have := (hm x).mp (List.mem_cons_self x xs)
    cases this
  | x :: xs, y :: ys, h₁, h₂, hm => by
    have hhead : ∀ {a : α} {l : List α},
        List.Chain' (fun a b => lt a b = true) (a :: l) →
        ∀ z ∈ l, lt a z = true :=
      fun h => chain'_rel_head (R := fun a b => lt a b = true)
        (fun a b c hab hbc => hso.1 a b c hab hbc) h
    have hxy : x = y := by
      rcases List.mem_cons.mp ((hm x).mp (List.mem_cons_self x xs)) with h | h
      · exact h
      · have hyx : lt y x = true := hhead h₂ x h
        rcases List.mem_cons.mp ((hm y).mpr (List.mem_cons_self y ys)) with h' | h'
        · exact h'.symm
        · have hxy' : lt x y = true := hhead h₁ y h'
          have hcirc := hso.1 y x y hyx hxy'
          rw [hso.2.1 y] at hcirc
          cases hcirc
    subst hxy
    have htail : ∀ a, a ∈ xs ↔ a ∈ ys := by
      intro a
      constructor
      · intro ha
        rcases List.mem_cons.mp ((hm a).mp (List.mem_cons_of_mem x ha)) with h | h
        · have hx := hhead h₁ a ha
          rw [h, hso.2.1 x] at hx
          cases hx
        · exact h
      · intro ha
        rcases List.mem_cons.mp ((hm a).mpr (List.mem_cons_of_mem x ha)) with h | h
        · have hx := hhead h₂ a ha
          rw [h, hso.2.1 x] at hx
          cases hx
        · exact h
    have htl : xs = ys :=
      chain'_ltB_ext hso (List.Chain'.tail h₁) (List.Chain'.tail h₂) htail
    rw [htl]

theorem charListLt_irrefl : ∀ as : List Char, charListLt as as = false
  | [] => rfl
  | c :: cs => by
    simp only [charListLt, if_pos rfl]
    exact charListLt_irrefl cs

theorem char_eq_of_toNat_eq {c d : Char} (h : c.toNat = d.toNat) : c = d :=
  Char.eq_of_val_eq (UInt32.toNat.inj h)

theorem charListLt_trans :
    ∀ as bs cs : List Char, charListLt as bs = true → charListLt bs cs = true →
      charListLt as cs = true := by
  intro as
  induction as with
  | nil =>
    intro bs cs h1 h2
    cases bs with
    | nil => exact absurd h1 (by simp [charListLt])
    | cons b bs' =>
      cases cs with
      | nil => exact absurd h2 (by simp [charListLt])
      | cons c cs' => simp [charListLt]
  | cons a as' ih =>
    intro bs cs h1 h2
    cases bs with
    | nil => exact absurd h1 (by simp [charListLt])
    | cons b bs' =>
      cases cs with
      | nil => exact absurd h2 (by simp [charListLt])
      | cons c cs' =>
        simp only [charListLt] at h1 h2 ⊢
        by_cases hab : a = b
        · subst hab
          rw [if_pos rfl] at h1
          by_cases hbc : a = c
          · subst hbc
            rw [if_pos rfl] at h2
            rw [if_pos rfl]
            exact ih bs' cs' h1 h2
          · rw [if_neg hbc] at h2
            rw [if_neg hbc]
            exact h2
        · rw [if_neg hab] at h1
          by_cases hbc : b = c
          · subst hbc
            rw [if_neg hab]
            exact h1
          · rw [if_neg hbc] at h2
            have hn1 : a.toNat < b.toNat := of_decide_eq_true h1
            have hn2 : b.toNat < c.toNat := of_decide_eq_true h2
            have hac : a.toNat < c.toNat := lt_trans hn1 hn2
            have hne : a ≠ c := by
              intro he
              subst he
              exact absurd hac (lt_irrefl _)
            rw [if_neg hne]
            exact decide_eq_true hac

theorem charListLt_total :
    ∀ as bs : List Char, as ≠ bs →
      charListLt as bs = true ∨ charListLt bs as = true := by
  intro as
  induction as with
  | nil =>
    intro bs hne
    cases bs with
    | nil => exact absurd rfl hne
    | cons b bs' =>
      left
      simp [charListLt]
  | cons a as' ih =>
    intro bs hne
    cases bs with
    | nil =>
      right
      simp [charListLt]
    | cons b bs' =>
      by_cases hab : a = b
      · subst hab
        have hne' : as' ≠ bs' := by
          intro h
          exact hne (by rw [h])
        rcases ih bs' hne' with h | h
        · left
          simp only [charListLt, if_pos rfl]
          exact h
        · right
          simp only [charListLt, if_pos rfl]
          exact h
      · have hnat : a.toNat ≠ b.toNat := fun h => hab (char_eq_of_toNat_eq h)
        rcases Nat.lt_or_ge a.toNat b.toNat with h | h
        · left
          simp only [charListLt, if_neg hab]
          exact decide_eq_true h
        · have hlt : b.toNat < a.toNat :=
            lt_of_le_of_ne h (fun heq => hnat heq.symm)
          right
          simp only [charListLt, if_neg (Ne.symm hab)]
          exact decide_eq_true hlt

theorem string_toList_inj {a b : String} (h : a.toList = b.toList) : a = b := by
  cases a
  cases b
  exact congrArg String.mk h

theorem strLtB_strictOrder : StrictOrderB strLtB := by
  refine ⟨?_, ?_, ?_⟩
  · intro a b c h1 h2
    exact charListLt_trans a.toList b.toList c.toList h1 h2
  · intro a
    exact charListLt_irrefl a.toList
  · intro a b hne
    exact charListLt_total a.toList b.toList (fun h => hne (string_toList_inj h))

theorem intLtB_strictOrder : StrictOrderB intLtB := by
  refine ⟨?_, ?_, ?_⟩
  · intro a b c h1 h2
    exact decide_eq_true (lt_trans (of_decide_eq_true h1) (of_decide_eq_true h2))
  · intro a
    exact decide_eq_false (lt_irrefl a)
  · intro a b hne
    rcases lt_or_gt_of_ne hne with h | h
    · exact Or.inl (decide_eq_true h)
    · exact Or.inr (decide_eq_true h)

theorem perm_insDescBy {α : Type} (k : α → Int) (x : α) (l : List α) :
    List.Perm (insDescBy k x l) (x :: l) := by
  induction l with
  | nil => exact List.Perm.refl _
  | cons y ys ih =>
    by_cases hxy : k y ≤ k x
    · simp only [insDescBy, if_pos hxy]
      exact List.Perm.refl _
    · simp only [insDescBy, if_neg hxy]
      exact List.Perm.trans (List.Perm.cons y ih) (List.Perm.swap x y ys)

theorem perm_sortDescBy {α : Type} (k : α → Int) (l : List α) :
    List.Perm (sortDescBy k l) l := by
  induction l with
  | nil => exact List.Perm.refl _
  | cons x xs ih =>
    exact List.Perm.trans (perm_insDescBy k x (sortDescBy k xs)) (List.Perm.cons x ih)

theorem mem_sortDescBy {α : Type} (k : α → Int) (l : List α) (a : α) :
    a ∈ sortDescBy k l ↔ a ∈ l :=
  (perm_sortDescBy k l).mem_iff

theorem length_sortDescBy {α : Type} (k : α → Int) (l : List α) :
    (sortDescBy k l).length = l.length :=
  (perm_sortDescBy k l).length_eq

theorem chain'_insDescBy {α : Type} (k : α → Int) (x : α) (l : List α)
    (h : List.Chain' (fun a b => k b ≤ k a) l) :
    List.Chain' (fun a b => k b ≤ k a) (insDescBy k x l) := by
  induction l with
  | nil => simp [insDescBy]
  | cons y ys ih =>
    by_cases hxy : k y ≤ k x
    · simp only [insDescBy, if_pos hxy]
      exact List.Chain'.cons hxy h
    · simp only [insDescBy, if_neg hxy]
      have hys := List.Chain'.tail h
      refine List.chain'_cons'.mpr ⟨?_, ih hys⟩
      intro z hz
      have hzmem : z ∈ insDescBy k x ys := by
        cases hins : insDescBy k x ys with
        | nil => simp [hins] at hz
        | cons w ws =>
          rw [hins] at hz
          simp only [List.head?_cons, Option.mem_def, Option.some.injEq] at hz
          rw [← hz]
          exact List.mem_cons_self w ws
      rcases List.mem_cons.mp ((perm_insDescBy k x ys).mem_iff.mp hzmem) with h' | h'
      · exact h' ▸ le_of_lt (lt_of_not_le hxy)
      · exact chain'_rel_head (R := fun a b => k b ≤ k a)
          (fun _ _ _ hab hbc => le_trans hbc hab) h z h'

theorem chain'_sortDescBy {α : Type} (k : α → Int) (l : List α) :
    List.Chain' (fun a b => k b ≤ k a) (sortDescBy k l) := by
  induction l with
  | nil => simp [sortDescBy]
  | cons x xs ih => exact chain'_insDescBy k x _ ih

theorem perm_insAscBy {α : Type} (k : α → Int) (x : α) (l : List α) :
    List.Perm (insAscBy k x l) (x :: l) := by
  induction l with
  | nil => exact List.Perm.refl _
  | cons y ys ih =>
    by_cases hxy : k x ≤ k y
    · simp only [insAscBy, if_pos hxy]
      exact List.Perm.refl _
    · simp only [insAscBy, if_neg hxy]
      exact List.Perm.trans (List.Perm.cons y ih) (List.Perm.swap x y ys)

theorem perm_sortAscBy {α : Type} (k : α → Int) (l : List α) :
    List.Perm (sortAscBy k l) l := by
  induction l with
  | nil => exact List.Perm.refl _
  | cons x xs ih =>
    exact List.Perm.trans (perm_insAscBy k x (sortAscBy k xs)) (List.Perm.cons x ih)

theorem mem_sortAscBy {α : Type} (k : α → Int) (l : List α) (a : α) :
    a ∈ sortAscBy k l ↔ a ∈ l :=
  (perm_sortAscBy k l).mem_iff

theorem maxList?_eq_none_iff (l : List Int) : maxList? l = none ↔ l = [] := by
  cases l with
  | nil => simp [maxList?]
  | cons x xs => simp [maxList?]

theorem maxList?_eq_of_mem_ub {l : List Int} {t : Int} (hmem : t ∈ l)
    (hub : ∀ x ∈ l, x ≤ t) : maxList? l = some t := by
  cases hm : maxList? l with
  | none =>
    rw [maxList?_eq_none_iff] at hm
    subst hm; cases hmem
  | some m =>
    have h1 : m ≤ t := hub m (maxList?_mem hm)
    have h2 : t ≤ m := le_of_maxList? hm hmem
    rw [le_antisymm h1 h2]

theorem mem_obsOf (l : List Obs) (p : String) (o : Obs) :
    o ∈ obsOf l p ↔ o ∈ l ∧ o.name = p := by
  simp [obsOf, List.mem_filter]

theorem obsOf_eq_nil_of_not_exists {l : List Obs} {p : String}
    (h : ∀ o ∈ l, o.name ≠ p) : obsOf l p = [] := by
  rw [obsOf, List.filter_eq_nil_iff]
  intro o ho
  simp only [beq_iff_eq]
  exact h o ho

theorem mem_groupNames (l : List Obs) (p : String) :
    p ∈ groupNames l ↔ ∃ o ∈ l, o.name = p := by
  rw [groupNames, mem_sortDedup, List.mem_map]

theorem nodup_groupNames (l : List Obs) : (groupNames l).Nodup :=
  nodup_sortDedup strLtB_strictOrder _

theorem countName_eq (l : List Obs) (p : String) :
    countName l p = (obsOf l p).length := rfl

theorem exists_of_countName_pos {l : List Obs} {p : String}
    (h : 0 < countName l p) : ∃ o ∈ l, o.name = p := by
  rw [countName_eq] at h
  cases ho : obsOf l p with
  | nil => rw [ho] at h; cases h
  | cons o os =>
    have : o ∈ obsOf l p := by rw [ho]; exact List.mem_cons_self o os
    rcases (mem_obsOf l p o).mp this with ⟨h1, h2⟩
    exact ⟨o, h1, h2⟩

theorem mem_timeFiltered_some (obs : List Obs) (d now : Int) (o : Obs) :
    o ∈ timeFiltered obs (some d) now ↔ o ∈ obs ∧ now - d ≤ o.ts := by
  simp [timeFiltered, List.mem_filter]

theorem mem_nameFiltered (l : List Obs) (names : List String) (o : Obs) :
    o ∈ nameFiltered l names ↔
      o ∈ l ∧ (names.isEmpty = true ∨ o.name ∈ names) := by
  rw [nameFiltered]
  by_cases h : names.isEmpty = true
  · rw [if_pos h]
    simp [h]
  · rw [if_neg h]
    simp only [List.mem_filter]
    constructor
    · rintro ⟨h1, h2⟩
      exact ⟨h1, Or.inr (List.elem_iff.mp h2)⟩
    · rintro ⟨h1, h2⟩
      rcases h2 with h2 | h2
      · exact absurd h2 h
      · exact ⟨h1, List.elem_iff.mpr h2⟩

theorem mem_survivors (l : List Obs) (o : Obs) :
    o ∈ survivors l ↔ o ∈ l ∧ 1 < countName l o.name := by
  simp [survivors, List.mem_filter]

/-- The rows of a surviving player are exactly that player's filtered
rows: the count filter removes no row of a player with `counts > 1`. -/
theorem obsOf_survivors {l : List Obs} {p : String}
    (h : 1 < countName l p) : obsOf (survivors l) p = obsOf l p := by
  rw [obsOf, survivors, List.filter_filter, obsOf]
  apply List.filter_congr
  intro o _
  by_cases hn : o.name = p
  · have hb : (o.name == p) = true := by simp [hn]
    have hc : decide (1 < countName l o.name) = true := by
      rw [hn]; exact decide_eq_true h
    rw [hb, hc, Bool.and_self]
  · have hb : (o.name == p) = false := by simp [hn]
    rw [hb, Bool.false_and]

theorem mem_groupNames_survivors (l : List Obs) (p : String) :
    p ∈ groupNames (survivors l) ↔ 1 < countName l p := by
  rw [mem_groupNames]
  constructor
  · rintro ⟨o, ho, hn⟩
    rcases (mem_survivors l o).mp ho with ⟨_, hc⟩
    exact hn ▸ hc
  · intro h
    rcases exists_of_countName_pos (lt_trans Nat.zero_lt_one h) with ⟨o, ho, hn⟩
    refine ⟨o, (mem_survivors l o).mpr ⟨ho, ?_⟩, hn⟩
    exact hn ▸ h

/-! ### Claim C8 -/

/-- C8, purity/frame: no aggregation operation (windowed gain
leaderboard, rolling max-gain detection, progression resampling, seasonal
snapshot) mutates the underlying observation snapshot — after any
sequence of engine calls the module state is unchanged, so a repeated
call with the same arguments returns the same result. -/
theorem C8_engine_pure (s : EngineState) (qs : List Query) :
    (runQueries s qs).2 = s ∧
      ∀ q : Query, (runQuery (runQueries s qs).2 q).1 = (runQuery s q).1 := by
  have hone : ∀ (s' : EngineState) (q : Query), (runQuery s' q).2 = s' := by
    intro s' q
    cases q <;> rfl
  have hall : ∀ (l : List Query) (s' : EngineState), (runQueries s' l).2 = s' := by
    intro l
    induction l with
    | nil => intro s'; rfl
    | cons q rest ih =>
      intro s'
      rw [runQueries]
      rw [ih, hone]
  refine ⟨hall qs s, ?_⟩
  intro q
  rw [hall qs s]

/-! ### Claim C9 -/

/-- C9 (refuted by the code, which contradicts its own consumers): the
claim says the per-player gain column is labelled `"Gain"` whether or not
any player qualifies.  In the code, `latest - earliest` keeps the pandas
name `"score"` (both operands are the `"score"` aggregation), so
`reset_index` yields columns `["name", "score"]` and
`rename(columns={0: "Gain"})` renames nothing: on any input with a
qualifying player the value column is labelled `"score"`, while the
empty-input frame is built with columns `["name", "Gain"]` — the shapes
differ, and the script's own users of the result (the
`"Gain" in df_all.columns` chart guard and the `column_config` keyed on
`"Gain"`) expect `"Gain"`. -/
theorem C9_gain_column_label :
    (gainLeaderboard [⟨"A", 0, 1⟩, ⟨"A", 1, 3⟩] none 0 []).cols
        = [Label.str "name", Label.str "score"] ∧
      Label.str "Gain" ∉ (gainLeaderboard [⟨"A", 0, 1⟩, ⟨"A", 1, 3⟩] none 0 []).cols ∧
      (gainLeaderboard [] none 0 []).cols = [Label.str "name", Label.str "Gain"] := by
  decide

/-! ### Claim C4 -/

/-- C4, counterexample to the claim as stated: on an input holding one
well-formed row and one row whose timestamp does not parse, the load does
not drop the bad row and continue — it aborts the whole computation (the
`pd.to_datetime` call uses the default `errors='raise'`), so no result
over the remaining well-formed rows exists. -/
theorem C4_counterexample :
    isOkB (loadTable badRows) = false ∧
      parseTimestamp "not-a-date" = none ∧
      (parseTimestamp "2024-01-01 00:00:00").isSome = true := by
  refine ⟨?_, ?_, ?_⟩ <;> rfl

/-- C4 as amended: for every input containing a row whose timestamp
cannot be parsed in the fixed format, the engine raises and the whole
load — hence the whole computation — aborts; no row-level skip, no
count/summary, and no result over the remaining well-formed rows. -/
theorem C4_parse_error_aborts (rows : List RawRow)
    (h : ∃ r ∈ rows, parseTimestamp r.tsRaw = none) :
    isOkB (loadTable rows) = false := by
  induction rows with
  | nil =>
    rcases h with ⟨r, hr, _⟩
    cases hr
  | cons r rs ih =>
    rcases h with ⟨r', hr', hp⟩
    rcases List.mem_cons.mp hr' with h1 | h1
    · subst h1
      rw [loadTable, hp]
      rfl
    · cases hh : parseTimestamp r.tsRaw with
      | none =>
        rw [loadTable, hh]
        rfl
      | some t =>
        have hrec := ih ⟨r', h1, hp⟩
        rw [loadTable, hh]
        cases hlt : loadTable rs with
        | error e => rfl
        | ok os =>
          rw [hlt] at hrec
          exact absurd hrec (by simp [isOkB])

/-- Witness for C4: the amended theorem applied at the concrete input. -/
theorem C4_witness : isOkB (loadTable badRows) = false :=
  C4_parse_error_aborts badRows ⟨⟨"B", "not-a-date", 7⟩, by decide, rfl⟩

/-! ### Claim C10 -/

/-- C10: the window filter enforces only the lower time bound
`timestamp >= now - window`: an observation with timestamp strictly
after the reference instant still passes the time test, and (once it
passes the allow-list and its player keeps at least two rows) its rows
reach the gain computation — no upper bound is applied. -/
theorem C10_no_upper_bound (obs : List Obs) (w now : Int)
    (names : List String) (o : Obs) (ho : o ∈ obs) (hnow : now < o.ts)
    (hw : 0 ≤ w) :
    o ∈ timeFiltered obs (some w) now ∧
      ((names.isEmpty = true ∨ o.name ∈ names) →
        o ∈ filteredObs obs (some w) now names) ∧
      ((names.isEmpty = true ∨ o.name ∈ names) →
        1 < countName (filteredObs obs (some w) now names) o.name →
        o ∈ survivors (filteredObs obs (some w) now names)) := by
  have htime : o ∈ timeFiltered obs (some w) now := by
    rw [mem_timeFiltered_some]
    refine ⟨ho, ?_⟩
    have : now - w ≤ now := by linarith
    exact le_trans this (le_of_lt hnow)
  have hfo : (names.isEmpty = true ∨ o.name ∈ names) →
      o ∈ filteredObs obs (some w) now names := by
    intro hn
    rw [filteredObs, mem_nameFiltered]
    exact ⟨htime, hn⟩
  refine ⟨htime, hfo, ?_⟩
  intro hn hc
  rw [mem_survivors]
  exact ⟨hfo hn, hc⟩

/-- Witness for C10: a fresh observation timestamped strictly after the
reference instant participates in the 2-hour window computation. -/
theorem C10_witness : (⟨"A", 1, 30⟩ : Obs) ∈ survivors (filteredObs obsW (some 2) 0 []) :=
  ((C10_no_upper_bound obsW 2 0 [] ⟨"A", 1, 30⟩ (by decide) (by decide)
    (by decide)).2.2 (Or.inl rfl) (by decide))

/-- The rows of `get_gain_leaderboard` in both branches: the empty
branch returns no rows and the non-empty branch sorts the gain series of
the surviving frame descending. -/
theorem gainLeaderboard_rows (obs : List Obs) (w : Option Int) (now : Int)
    (names : List String) :
    (gainLeaderboard obs w now names).rows =
      sortDescBy (fun r => r.2)
        (gainSeries (survivors (filteredObs obs w now names))) := by
  rw [gainLeaderboard]
  by_cases h : (survivors (filteredObs obs w now names)).isEmpty = true
  · rw [if_pos h]
    rw [List.isEmpty_iff] at h
    rw [h]
    rfl
  · rw [if_neg h]

/-! ### Claim C6 -/

/-- C6: for every window (finite or all-time) and any allow-list, a
player with fewer than two observations surviving the time and
allow-list filters is dropped entirely: none of their rows survive into
the frame the gain ranker groups, and the player never appears in the
leaderboard rows. -/
theorem C6_sparse_players_dropped (obs : List Obs) (w : Option Int)
    (now : Int) (names : List String) (p : String)
    (h : countName (filteredObs obs w now names) p < 2) :
    (∀ o ∈ survivors (filteredObs obs w now names), o.name ≠ p) ∧
      ∀ g : Int, (p, g) ∉ (gainLeaderboard obs w now names).rows := by
  have hdrop : ∀ o ∈ survivors (filteredObs obs w now names), o.name ≠ p := by
    intro o hos hop
    rcases (mem_survivors _ o).mp hos with ⟨_, hc⟩
    rw [hop] at hc
    exact absurd hc (not_lt_of_ge (Nat.le_of_lt_succ h))
  refine ⟨hdrop, ?_⟩
  intro g hmem
  rw [gainLeaderboard_rows, mem_sortDescBy, gainSeries, List.mem_map] at hmem
  rcases hmem with ⟨q, hq, heq⟩
  have hqp : q = p := congrArg Prod.fst heq
  subst hqp
  rcases (mem_groupNames _ q).mp hq with ⟨o, hos, hon⟩
  exact absurd hon (hdrop o hos)

/-- Witness for C6: in the worked scenario a third player with a single
row (added to the data) is absent from the all-time leaderboard rows. -/
theorem C6_witness :
    ("C", (9 : Int)) ∉ (gainLeaderboard (⟨"C", 2, 9⟩ :: obsW) none 0 []).rows :=
  (C6_sparse_players_dropped (⟨"C", 2, 9⟩ :: obsW) none 0 [] "C" (by decide)).2 9

theorem minList?_eq_none_iff (l : List Int) : minList? l = none ↔ l = [] := by
  cases l with
  | nil => simp [minList?]
  | cons x xs => simp [minList?]

theorem minList?_const {l : List Int} {s : Int} (hne : l ≠ [])
    (hall : ∀ x ∈ l, x = s) : minList? l = some s := by
  cases l with
  | nil => exact absurd rfl hne
  | cons x xs =>
    have hx : x = s := hall x (List.mem_cons_self x xs)
    simp only [minList?, Option.some.injEq]
    rcases foldlMin_eq_init_or_mem xs x with h | h
    · rw [h, hx]
    · have := hall _ (List.mem_cons_of_mem x h)
      rw [this]

theorem maxScoreD_survivors {l : List Obs} {p : String}
    (h : 1 < countName l p) : maxScoreD (survivors l) p = maxScoreD l p := by
  rw [maxScoreD, maxScoreD, obsOf_survivors h]

theorem minScoreD_survivors {l : List Obs} {p : String}
    (h : 1 < countName l p) : minScoreD (survivors l) p = minScoreD l p := by
  rw [minScoreD, minScoreD, obsOf_survivors h]

theorem minScoreD_le_maxScoreD {l : List Obs} {p : String}
    (h : ∃ o ∈ l, o.name = p) : minScoreD l p ≤ maxScoreD l p := by
  rcases h with ⟨o, ho, hn⟩
  have hmem : o ∈ obsOf l p := (mem_obsOf l p o).mpr ⟨ho, hn⟩
  have hsmem : o.score ∈ (obsOf l p).map (·.score) :=
    List.mem_map_of_mem _ hmem
  cases hM : maxList? ((obsOf l p).map (·.score)) with
  | none =>
    rw [maxList?_eq_none_iff] at hM
    rw [hM] at hsmem
    cases hsmem
  | some m =>
    cases hm : minList? ((obsOf l p).map (·.score)) with
    | none =>
      rw [minList?_eq_none_iff] at hm
      rw [hm] at hsmem
      cases hsmem
    | some mi =>
      have h1 : mi ≤ m := minList?_le hm (maxList?_mem hM)
      rw [maxScoreD, minScoreD, hM, hm]
      exact h1

/-- Constant scores give a zero gain. -/
theorem gain_zero_of_const {l : List Obs} {p : String}
    (hex : ∃ o ∈ l, o.name = p)
    (hconst : ∀ o ∈ obsOf l p, ∀ o' ∈ obsOf l p, o.score = o'.score) :
    maxScoreD l p - minScoreD l p = 0 := by
  rcases hex with ⟨o, ho, hn⟩
  have hmem : o ∈ obsOf l p := (mem_obsOf l p o).mpr ⟨ho, hn⟩
  have hne : (obsOf l p).map (·.score) ≠ [] := by
    intro hnil
    have : o.score ∈ (obsOf l p).map (·.score) := List.mem_map_of_mem _ hmem
    rw [hnil] at this
    cases this
  have hall : ∀ x ∈ (obsOf l p).map (·.score), x = o.score := by
    intro x hx
    rcases List.mem_map.mp hx with ⟨o', ho', hox⟩
    rw [← hox]
    exact hconst o' ho' o hmem
  rw [maxScoreD, minScoreD, maxList?_const hne hall, minList?_const hne hall]
  simp

/-! ### Claim C2 -/

/-- C2: in the windowed gain leaderboard, each surviving player's gain is
max(score) minus min(score) over that player's in-window rows (hence
never negative, and constant-score players with at least two rows appear
with gain 0), and the rows come out ordered descending by gain. -/
theorem C2_gain_ranker (obs : List Obs) (w : Option Int) (now : Int)
    (names : List String) :
    (∀ r ∈ (gainLeaderboard obs w now names).rows,
        r.2 = maxScoreD (filteredObs obs w now names) r.1
            - minScoreD (filteredObs obs w now names) r.1 ∧ 0 ≤ r.2) ∧
      List.Chain' (fun a b => b.2 ≤ a.2) (gainLeaderboard obs w now names).rows ∧
      (∀ p : String, 1 < countName (filteredObs obs w now names) p →
        (∀ o ∈ obsOf (filteredObs obs w now names) p,
          ∀ o' ∈ obsOf (filteredObs obs w now names) p, o.score = o'.score) →
        (p, (0 : Int)) ∈ (gainLeaderboard obs w now names).rows) := by
  refine ⟨?_, ?_, ?_⟩
  · intro r hr
    rw [gainLeaderboard_rows, mem_sortDescBy, gainSeries, List.mem_map] at hr
    rcases hr with ⟨p, hp, heq⟩
    have hc : 1 < countName (filteredObs obs w now names) p :=
      (mem_groupNames_survivors _ p).mp hp
    have hex : ∃ o ∈ filteredObs obs w now names, o.name = p :=
      exists_of_countName_pos (lt_trans Nat.zero_lt_one hc)
    rw [← heq]
    show maxScoreD (survivors (filteredObs obs w now names)) p
        - minScoreD (survivors (filteredObs obs w now names)) p
        = maxScoreD (filteredObs obs w now names) p
          - minScoreD (filteredObs obs w now names) p ∧
      0 ≤ maxScoreD (survivors (filteredObs obs w now names)) p
        - minScoreD (survivors (filteredObs obs w now names)) p
    rw [maxScoreD_survivors hc, minScoreD_survivors hc]
    exact ⟨rfl, sub_nonneg.mpr (minScoreD_le_maxScoreD hex)⟩
  · rw [gainLeaderboard_rows]
    exact chain'_sortDescBy (fun r : String × Int => r.2) _
  · intro p hc hconst
    have hp : p ∈ groupNames (survivors (filteredObs obs w now names)) :=
      (mem_groupNames_survivors _ p).mpr hc
    have hz : maxScoreD (filteredObs obs w now names) p
        - minScoreD (filteredObs obs w now names) p = 0 :=
      gain_zero_of_const
        (exists_of_countName_pos (lt_trans Nat.zero_lt_one hc)) hconst
    rw [gainLeaderboard_rows, mem_sortDescBy, gainSeries]
    have hmem := List.mem_map_of_mem
      (fun q => (q, maxScoreD (survivors (filteredObs obs w now names)) q
        - minScoreD (survivors (filteredObs obs w now names)) q)) hp
    have hmem2 : (p, maxScoreD (survivors (filteredObs obs w now names)) p
        - minScoreD (survivors (filteredObs obs w now names)) p)
        ∈ List.map (fun q => (q,
            maxScoreD (survivors (filteredObs obs w now names)) q
            - minScoreD (survivors (filteredObs obs w now names)) q))
          (groupNames (survivors (filteredObs obs w now names))) := hmem
    rw [maxScoreD_survivors hc, minScoreD_survivors hc, hz] at hmem2
    exact hmem2

/-- Witness for C2: in the worked scenario, constant-score player B with
two rows appears with gain 0. -/
theorem C2_witness : ("B", (0 : Int)) ∈ (gainLeaderboard obsW none 0 []).rows :=
  (C2_gain_ranker obsW none 0 []).2.2 "B" (by decide) (by decide)

theorem chain'_enumFrom {α : Type} (R : α → α → Prop) :
    ∀ (n : Nat) (l : List α), List.Chain' R l →
      List.Chain' (fun a b => R a.2 b.2) (List.enumFrom n l)
  | _, [], _ => List.chain'_nil
  | _, [_], _ => List.chain'_singleton _
  | n, x :: y :: xs, h => by
    have hxy : R x y := (List.chain'_cons.mp h).1
    have htail := chain'_enumFrom R (n + 1) (y :: xs) (List.chain'_cons.mp h).2
    show List.Chain' (fun a b => R a.2 b.2)
      ((n, x) :: (n + 1, y) :: List.enumFrom (n + 2) xs)
    exact List.chain'_cons.mpr ⟨hxy, htail⟩

theorem seasonalRows_eq (obs : List Obs) (selected : List String) :
    seasonalRows obs selected =
      (sortDescBy (fun r : String × Int => r.2)
        ((groupNames (obs.filter (fun o => selected.contains o.name))).map
          (fun p => (p, maxScoreD (obs.filter (fun o => selected.contains o.name)) p)))).enum.map
        (fun ir => (ir.1 + 1, ir.2.1, ir.2.2)) := rfl

/-- Restricting to an allow-list leaves an allow-listed player's group
unchanged. -/
theorem obsOf_filter_contains {obs : List Obs} {selected : List String}
    {p : String} (h : p ∈ selected) :
    obsOf (obs.filter (fun o => selected.contains o.name)) p = obsOf obs p := by
  rw [obsOf, List.filter_filter, obsOf]
  apply List.filter_congr
  intro o _
  by_cases hn : o.name = p
  · have hb : (o.name == p) = true := by simp [hn]
    have hc : selected.contains o.name = true := by
      rw [hn]
      exact List.elem_iff.mpr h
    rw [hb, hc, Bool.and_self]
  · have hb : (o.name == p) = false := by simp [hn]
    rw [hb, Bool.false_and]

/-! ### Claim C5 -/

/-- C5: the seasonal snapshot is ordered descending by each entry's
highest score, the attached ranks are exactly the consecutive integers
1..N where N is the number of distinct selected names with at least one
observation, every entry carries a selected, observed player's all-time
maximum score, and a selected name with no observation yields no entry
(and no error: the function is total). -/
theorem C5_seasonal_snapshot (obs : List Obs) (selected : List String) :
    (seasonalRows obs selected).map (fun r => r.1)
        = List.range' 1 (seasonalRows obs selected).length ∧
      List.Chain' (fun a b => b.2.2 ≤ a.2.2) (seasonalRows obs selected) ∧
      (seasonalRows obs selected).length =
        (groupNames (obs.filter (fun o => selected.contains o.name))).length ∧
      (∀ p : String,
        p ∈ groupNames (obs.filter (fun o => selected.contains o.name)) ↔
          p ∈ selected ∧ ∃ o ∈ obs, o.name = p) ∧
      (∀ r ∈ seasonalRows obs selected,
        r.2.2 = maxScoreD obs r.2.1 ∧ r.2.1 ∈ selected ∧
          ∃ o ∈ obs, o.name = r.2.1) ∧
      (∀ p : String, p ∈ selected → (∀ o ∈ obs, o.name ≠ p) →
        ∀ r ∈ seasonalRows obs selected, r.2.1 ≠ p) := by
  have hsel : ∀ p : String,
      p ∈ groupNames (obs.filter (fun o => selected.contains o.name)) ↔
        p ∈ selected ∧ ∃ o ∈ obs, o.name = p := by
    intro p
    rw [mem_groupNames]
    constructor
    · rintro ⟨o, ho, hn⟩
      rcases List.mem_filter.mp ho with ⟨ho1, ho2⟩
      refine ⟨?_, o, ho1, hn⟩
      rw [← hn]
      exact List.elem_iff.mp ho2
    · rintro ⟨hp, o, ho, hn⟩
      refine ⟨o, List.mem_filter.mpr ⟨ho, ?_⟩, hn⟩
      rw [hn]
      exact List.elem_iff.mpr hp
  have hentry : ∀ r ∈ seasonalRows obs selected,
      r.2.2 = maxScoreD obs r.2.1 ∧ r.2.1 ∈ selected ∧
        ∃ o ∈ obs, o.name = r.2.1 := by
    intro r hr
    rw [seasonalRows_eq, List.mem_map] at hr
    rcases hr with ⟨ir, hir, heq⟩
    have h2 : ir.2 ∈ sortDescBy (fun r : String × Int => r.2)
        ((groupNames (obs.filter (fun o => selected.contains o.name))).map
          (fun p => (p, maxScoreD (obs.filter (fun o => selected.contains o.name)) p))) :=
      List.snd_mem_of_mem_enumFrom (by rw [← List.enum_eq_enumFrom] ; exact hir)
    rw [mem_sortDescBy, List.mem_map] at h2
    rcases h2 with ⟨p, hp, hpe⟩
    rcases (hsel p).mp hp with ⟨hps, hpo⟩
    have hmax : maxScoreD (obs.filter (fun o => selected.contains o.name)) p
        = maxScoreD obs p := by
      rw [maxScoreD, maxScoreD, obsOf_filter_contains hps]
    rw [← heq, ← hpe]
    exact ⟨hmax, hps, hpo⟩
  refine ⟨?_, ?_, ?_, hsel, hentry, ?_⟩
  · rw [seasonalRows_eq, List.map_map, List.length_map, List.enum_length,
      length_sortDescBy, List.length_map]
    have hfun : ((fun r : Nat × String × Int => r.1) ∘
        (fun ir : Nat × (String × Int) => (ir.1 + 1, ir.2.1, ir.2.2)))
        = (fun n : Nat => n + 1) ∘ Prod.fst := rfl
    rw [hfun, ← List.map_map, List.enum_map_fst, length_sortDescBy,
      List.length_map, List.range'_eq_map_range]
    apply List.map_congr_left
    intro a _
    exact Nat.add_comm a 1
  · rw [seasonalRows_eq]
    have hch := chain'_sortDescBy (fun r : String × Int => r.2)
      ((groupNames (obs.filter (fun o => selected.contains o.name))).map
        (fun p => (p, maxScoreD (obs.filter (fun o => selected.contains o.name)) p)))
    have := chain'_enumFrom (fun a b : String × Int => b.2 ≤ a.2) 0 _ hch
    rw [← List.enum_eq_enumFrom] at this
    rw [List.chain'_map]
    exact this
  · rw [seasonalRows_eq, List.length_map, List.enum_length, length_sortDescBy,
      List.length_map]
  · intro p hps habs r hr hrp
    rcases (hentry r hr).2.2 with ⟨o, ho, hon⟩
    rw [hrp] at hon
    exact absurd hon (habs o ho)

/-- Witness for C5: the spec's seasonal scenario — only X of the selected
pair has observations, and its single entry carries the all-time maximum
42. -/
theorem C5_witness :
    ((1 : Nat), "X", (42 : Int)) ∈ seasonalRows [⟨"X", 0, 42⟩, ⟨"X", 1, 40⟩] ["X", "Y"] ∧
      (42 : Int) = maxScoreD [⟨"X", 0, 42⟩, ⟨"X", 1, 40⟩] "X" := by
  have hrows : seasonalRows [⟨"X", 0, 42⟩, ⟨"X", 1, 40⟩] ["X", "Y"]
      = [((1 : Nat), "X", (42 : Int))] := by decide
  have hmem : ((1 : Nat), "X", (42 : Int))
      ∈ seasonalRows [⟨"X", 0, 42⟩, ⟨"X", 1, 40⟩] ["X", "Y"] := by
    rw [hrows]
    exact List.mem_singleton.mpr rfl
  refine ⟨hmem, ?_⟩
  exact ((C5_seasonal_snapshot [⟨"X", 0, 42⟩, ⟨"X", 1, 40⟩] ["X", "Y"]).2.2.2.2.1
    _ hmem).1

theorem foldl_rollingStep (g : List Obs) (w : Int) :
    ∀ (l : List Obs) (a : Int),
      l.foldl (rollingStep g w) a = (l.filterMap (candAt g w)).foldl max a := by
  intro l
  induction l with
  | nil => intro a; rfl
  | cons o os ih =>
    intro a
    cases hc : candAt g w o with
    | none => simp [List.foldl_cons, rollingStep, hc, List.filterMap_cons, ih]
    | some c => simp [List.foldl_cons, rollingStep, hc, List.filterMap_cons, ih]

theorem rollingMaxGain_eq_foldl (g : List Obs) (w : Int) :
    rollingMaxGain g w = (candidates g w).foldl max 0 := by
  rw [rollingMaxGain, candidates]
  exact foldl_rollingStep g w g 0

theorem foldlMax_zero_pos_iff (l : List Int) :
    0 < l.foldl max 0 ↔ ∃ c ∈ l, 0 < c := by
  constructor
  · intro h
    rcases foldlMax_eq_init_or_mem l 0 with h' | h'
    · rw [h'] at h
      exact absurd h (lt_irrefl 0)
    · exact ⟨_, h', h⟩
  · rintro ⟨c, hc, hcpos⟩
    exact lt_of_lt_of_le hcpos (foldlMax_le_of_mem l 0 c hc)

theorem foldlMax_zero_eq_max (l : List Int) (h : 0 < l.foldl max 0) :
    maxList? l = some (l.foldl max 0) := by
  cases l with
  | nil => exact absurd h (lt_irrefl 0)
  | cons x xs =>
    have hcomm : (x :: xs).foldl max 0 = max 0 (xs.foldl max x) := by
      rw [List.foldl_cons]
      exact foldlMax_max_comm xs 0 x
    rw [hcomm] at h ⊢
    have hm : 0 < xs.foldl max x := by
      by_contra hneg
      rw [max_eq_left (le_of_not_lt hneg)] at h
      exact absurd h (lt_irrefl 0)
    rw [max_eq_right (le_of_lt hm)]
    rfl

/-- Membership in the detector output, characterised per player. -/
theorem mem_detectRolling (obs : List Obs) (w : Int) (p : String) (v : Int) :
    (p, v) ∈ detectRolling obs w ↔
      p ∈ groupNames obs ∧ 0 < rollingMaxGain (seriesOf obs p) w ∧
        v = rollingMaxGain (seriesOf obs p) w := by
  rw [detectRolling, mem_sortDescBy, List.mem_filterMap]
  constructor
  · rintro ⟨q, hq, hfq⟩
    by_cases hpos : 0 < rollingMaxGain (seriesOf obs q) w
    · rw [if_pos hpos] at hfq
      have h1 : q = p := congrArg Prod.fst (Option.some.inj hfq)
      have h2 : rollingMaxGain (seriesOf obs q) w = v :=
        congrArg Prod.snd (Option.some.inj hfq)
      subst h1
      exact ⟨hq, hpos, h2.symm⟩
    · rw [if_neg hpos] at hfq
      cases hfq
  · rintro ⟨hp, hpos, hv⟩
    refine ⟨p, hp, ?_⟩
    rw [if_pos hpos, hv]

/-! ### Claim C1 -/

/-- C1: per player (each group sorted ascending by timestamp), the
detector reports exactly the maximum over all anchor observations of
(max score strictly after the anchor and within the window) minus the
anchor's score, and a player is emitted iff that maximum is strictly
positive — empty and single-observation series (no candidates) and
players with no positive candidate, such as strictly decreasing series,
are omitted entirely, never reported as zero. -/
theorem C1_rolling_max_gain (obs : List Obs) (w : Int) (p : String) :
    ((∃ v : Int, (p, v) ∈ detectRolling obs w) ↔
      ∃ c ∈ candidates (seriesOf obs p) w, 0 < c) ∧
      (∀ v : Int, (p, v) ∈ detectRolling obs w →
        0 < v ∧ maxList? (candidates (seriesOf obs p) w) = some v) := by
  constructor
  · constructor
    · rintro ⟨v, hv⟩
      rcases (mem_detectRolling obs w p v).mp hv with ⟨_, hpos, _⟩
      rw [rollingMaxGain_eq_foldl] at hpos
      exact (foldlMax_zero_pos_iff _).mp hpos
    · rintro hex
      have hpos : 0 < rollingMaxGain (seriesOf obs p) w := by
        rw [rollingMaxGain_eq_foldl]
        exact (foldlMax_zero_pos_iff _).mpr hex
      have hp : p ∈ groupNames obs := by
        rcases hex with ⟨c, hc, _⟩
        rw [candidates, List.mem_filterMap] at hc
        rcases hc with ⟨o, ho, _⟩
        rw [seriesOf, mem_sortAscBy] at ho
        rcases (mem_obsOf obs p o).mp ho with ⟨ho1, ho2⟩
        exact (mem_groupNames obs p).mpr ⟨o, ho1, ho2⟩
      exact ⟨_, (mem_detectRolling obs w p _).mpr ⟨hp, hpos, rfl⟩⟩
  · intro v hv
    rcases (mem_detectRolling obs w p v).mp hv with ⟨_, hpos, hveq⟩
    subst hveq
    refine ⟨hpos, ?_⟩
    rw [rollingMaxGain_eq_foldl] at hpos ⊢
    exact foldlMax_zero_eq_max _ hpos

/-- Witness for C1: in the spec's rolling scenario with a 2-hour window,
player A is reported with 20 — the maximum candidate. -/
theorem C1_witness :
    0 < (20 : Int) ∧ maxList? (candidates (seriesOf obsW "A") 2) = some 20 :=
  (C1_rolling_max_gain obsW 2 "A").2 20 (by decide)

theorem flatMap_congr_left {α β : Type} (l : List α) (f g : α → List β)
    (h : ∀ a ∈ l, f a = g a) : l.flatMap f = l.flatMap g := by
  induction l with
  | nil => rfl
  | cons x xs ih =>
    rw [List.flatMap_cons, List.flatMap_cons, h x (List.mem_cons_self x xs),
      ih (fun a ha => h a (List.mem_cons_of_mem x ha))]

theorem zip_self_map {α β : Type} (l : List α) (f : α → β) :
    l.zip (l.map f) = l.map (fun a => (a, f a)) := by
  induction l with
  | nil => rfl
  | cons x xs ih =>
    show (x, f x) :: xs.zip (xs.map f) = (x, f x) :: xs.map (fun a => (a, f a))
    rw [ih]

theorem mem_axisOf (l : List Obs) (t : Int) :
    t ∈ axisOf l ↔ ∃ o ∈ l, o.ts = t := by
  rw [axisOf, mem_sortDedup, List.mem_map]

theorem ts_mem_axisOf {l : List Obs} {o : Obs} (ho : o ∈ l) : o.ts ∈ axisOf l :=
  (mem_axisOf l o.ts).mpr ⟨o, ho, rfl⟩

theorem chain'_lt_axisOf (l : List Obs) :
    List.Chain' (· < ·) (axisOf l) := by
  have h := chain'_sortDedup intLtB_strictOrder (l.map (·.ts))
  rw [axisOf]
  exact h.imp (fun a b hab => of_decide_eq_true hab)

theorem mem_tsUpTo (l : List Obs) (p : String) (t u : Int) :
    u ∈ tsUpTo l p t ↔ ∃ o ∈ obsOf l p, o.ts ≤ t ∧ o.ts = u := by
  rw [tsUpTo, List.mem_map]
  constructor
  · rintro ⟨o, ho, hu⟩
    rcases List.mem_filter.mp ho with ⟨ho1, ho2⟩
    exact ⟨o, ho1, of_decide_eq_true ho2, hu⟩
  · rintro ⟨o, ho, hle, hu⟩
    exact ⟨o, List.mem_filter.mpr ⟨ho, decide_eq_true hle⟩, hu⟩

theorem cell_eq_none_iff (l : List Obs) (p : String) (t : Int) :
    cell l p t = none ↔ ∀ o ∈ obsOf l p, o.ts ≠ t := by
  rw [cell, maxList?_eq_none_iff, List.map_eq_nil_iff, List.filter_eq_nil_iff]
  constructor
  · intro h o ho het
    exact h o ho (by simp [het])
  · intro h o ho hbeq
    exact h o ho (by simpa using hbeq)

theorem cell_isSome_of_obs {l : List Obs} {p : String} {o : Obs}
    (ho : o ∈ obsOf l p) {t : Int} (het : o.ts = t) :
    ∃ v, cell l p t = some v := by
  cases hc : cell l p t with
  | none => exact absurd het ((cell_eq_none_iff l p t).mp hc o ho)
  | some v => exact ⟨v, rfl⟩

theorem cell_some_spec {l : List Obs} {p : String} {t v : Int}
    (h : cell l p t = some v) :
    ∃ o ∈ obsOf l p, o.ts = t ∧ o.score = v ∧
      ∀ o' ∈ obsOf l p, o'.ts = t → o'.score ≤ v := by
  rw [cell] at h
  have hv := maxList?_mem h
  rcases List.mem_map.mp hv with ⟨o, ho, hos⟩
  rcases List.mem_filter.mp ho with ⟨ho1, ho2⟩
  refine ⟨o, ho1, by simpa using ho2, hos, ?_⟩
  intro o' ho' het
  exact le_of_maxList? h
    (List.mem_map_of_mem _ (List.mem_filter.mpr ⟨ho', by simp [het]⟩))

theorem filledAt_eq_none_iff (l : List Obs) (p : String) (t : Int) :
    filledAt l p t = none ↔ ∀ o ∈ obsOf l p, ¬o.ts ≤ t := by
  constructor
  · intro h o ho hle
    rw [filledAt] at h
    cases hm : maxList? (tsUpTo l p t) with
    | none =>
      rw [maxList?_eq_none_iff] at hm
      have : o.ts ∈ tsUpTo l p t := (mem_tsUpTo l p t o.ts).mpr ⟨o, ho, hle, rfl⟩
      rw [hm] at this
      cases this
    | some t0 =>
      rw [hm] at h
      rcases (mem_tsUpTo l p t t0).mp (maxList?_mem hm) with ⟨o0, ho0, _, ht0⟩
      rcases cell_isSome_of_obs ho0 ht0 with ⟨v, hv⟩
      have h2 : cell l p t0 = none := h
      rw [hv] at h2
      cases h2
  · intro h
    rw [filledAt]
    have hnil : tsUpTo l p t = [] := by
      cases htu : tsUpTo l p t with
      | nil => rfl
      | cons u us =>
        have : u ∈ tsUpTo l p t := by rw [htu]; exact List.mem_cons_self u us
        rcases (mem_tsUpTo l p t u).mp this with ⟨o, ho, hle, _⟩
        exact absurd hle (h o ho)
    rw [hnil]
    rfl

theorem filledAt_isSome_of_exists {l : List Obs} {p : String} {t : Int}
    (h : ∃ o ∈ obsOf l p, o.ts ≤ t) : ∃ v, filledAt l p t = some v := by
  cases hf : filledAt l p t with
  | none =>
    rcases h with ⟨o, ho, hle⟩
    exact absurd hle ((filledAt_eq_none_iff l p t).mp hf o ho)
  | some v => exact ⟨v, rfl⟩

theorem lastTs_at_obs (l : List Obs) (p : String) (t : Int)
    (h : ∃ o ∈ obsOf l p, o.ts = t) :
    maxList? (tsUpTo l p t) = some t := by
  rcases h with ⟨o, ho, hot⟩
  apply maxList?_eq_of_mem_ub
  · exact (mem_tsUpTo l p t t).mpr ⟨o, ho, le_of_eq hot, hot⟩
  · intro u hu
    rcases (mem_tsUpTo l p t u).mp hu with ⟨o', _, hle, heq⟩
    exact heq ▸ hle

theorem filledAt_at_obs (l : List Obs) (p : String) (t : Int)
    (h : ∃ o ∈ obsOf l p, o.ts = t) :
    filledAt l p t = cell l p t := by
  rw [filledAt, lastTs_at_obs l p t h]

theorem filledAt_congr (l : List Obs) (p : String) {t t' : Int} (ht : t' ≤ t)
    (hgap : ∀ o ∈ obsOf l p, o.ts ≤ t → o.ts ≤ t') :
    filledAt l p t = filledAt l p t' := by
  rw [filledAt, filledAt]
  have heq : tsUpTo l p t = tsUpTo l p t' := by
    rw [tsUpTo, tsUpTo]
    congr 1
    apply List.filter_congr
    intro o ho
    exact decide_eq_decide.mpr ⟨fun hle => hgap o ho hle, fun hle => le_trans hle ht⟩
  rw [heq]

/-- The sequential forward fill down a strictly ascending axis covering
all of the player's instants computes, at each axis instant, the cell at
the player's latest observed instant at or before it. -/
theorem ffill_closed (l : List Obs) (p : String) :
    ∀ (A : List Int) (lo : Int),
      List.Chain' (· < ·) A →
      (∀ t ∈ A, lo < t) →
      (∀ o ∈ obsOf l p, lo < o.ts → o.ts ∈ A) →
      ffillList (filledAt l p lo) (A.map (cell l p)) = A.map (filledAt l p) := by
  intro A
  induction A with
  | nil =>
    intro lo _ _ _
    rfl
  | cons t A' ih =>
    intro lo hchain hlo hobs
    have hlt : lo < t := hlo t (List.mem_cons_self t A')
    have hchainA' : List.Chain' (· < ·) A' := List.Chain'.tail hchain
    have hheadlt : ∀ u ∈ A', t < u :=
      chain'_rel_head (R := (· < ·)) (fun _ _ _ hab hbc => lt_trans hab hbc) hchain
    have hobs' : ∀ o ∈ obsOf l p, t < o.ts → o.ts ∈ A' := by
      intro o ho hto
      have hmem : o.ts ∈ t :: A' := hobs o ho (lt_trans hlt hto)
      rcases List.mem_cons.mp hmem with h | h
      · exact absurd (h ▸ hto) (lt_irrefl _)
      · exact h
    have htail := ih t hchainA' hheadlt hobs'
    rw [List.map_cons, List.map_cons]
    cases hc : cell l p t with
    | some v =>
      have hobs_t : ∃ o ∈ obsOf l p, o.ts = t := by
        rcases cell_some_spec hc with ⟨o, ho, hot, _, _⟩
        exact ⟨o, ho, hot⟩
      have hft : filledAt l p t = some v := by
        rw [filledAt_at_obs l p t hobs_t, hc]
      rw [hft] at htail
      calc ffillList (filledAt l p lo) (some v :: A'.map (cell l p))
          = some v :: ffillList (some v) (A'.map (cell l p)) := rfl
        _ = some v :: A'.map (filledAt l p) := by rw [htail]
        _ = filledAt l p t :: A'.map (filledAt l p) := by rw [hft]
    | none =>
      have hnone : ∀ o ∈ obsOf l p, o.ts ≠ t := (cell_eq_none_iff l p t).mp hc
      have hgap : ∀ o ∈ obsOf l p, o.ts ≤ t → o.ts ≤ lo := by
        intro o ho hle
        by_contra hgt
        have hmem : o.ts ∈ t :: A' := hobs o ho (lt_of_not_le hgt)
        rcases List.mem_cons.mp hmem with h | h
        · exact hnone o ho h
        · exact absurd hle (not_le_of_lt (hheadlt _ h))
      have hfeq : filledAt l p t = filledAt l p lo :=
        filledAt_congr l p (le_of_lt hlt) hgap
      rw [hfeq] at htail
      calc ffillList (filledAt l p lo) (none :: A'.map (cell l p))
          = filledAt l p lo :: ffillList (filledAt l p lo) (A'.map (cell l p)) := rfl
        _ = filledAt l p lo :: A'.map (filledAt l p) := by rw [htail]
        _ = filledAt l p t :: A'.map (filledAt l p) := by rw [hfeq]

theorem filledCol_eq (l : List Obs) (p : String) :
    filledCol l p = (axisOf l).map (filledAt l p) := by
  rw [filledCol, pivotCol]
  cases hA : axisOf l with
  | nil => rfl
  | cons a A' =>
    have hchain : List.Chain' (· < ·) (a :: A') := by
      rw [← hA]
      exact chain'_lt_axisOf l
    have hheadlt : ∀ u ∈ A', a < u :=
      chain'_rel_head (R := (· < ·)) (fun _ _ _ hab hbc => lt_trans hab hbc) hchain
    have hlo : ∀ t ∈ a :: A', a - 1 < t := by
      intro t ht
      rcases List.mem_cons.mp ht with h | h
      · subst h
        omega
      · have := hheadlt t h
        omega
    have hobs : ∀ o ∈ obsOf l p, a - 1 < o.ts → o.ts ∈ a :: A' := by
      intro o ho _
      have hax : o.ts ∈ axisOf l := ts_mem_axisOf ((mem_obsOf l p o).mp ho).1
      rw [hA] at hax
      exact hax
    have hinit : filledAt l p (a - 1) = none := by
      apply (filledAt_eq_none_iff l p (a - 1)).mpr
      intro o ho hle
      have hax : o.ts ∈ axisOf l := ts_mem_axisOf ((mem_obsOf l p o).mp ho).1
      rw [hA] at hax
      rcases List.mem_cons.mp hax with h | h
      · omega
      · have := hheadlt _ h
        omega
    have hmain := ffill_closed l p (a :: A') (a - 1) hchain hlo hobs
    rw [hinit] at hmain
    exact hmain

theorem clampedCol_eq (l : List Obs) (p : String) :
    clampedCol l p = (axisOf l).map (emittedAt l p) := by
  rw [clampedCol, filledCol_eq, List.map_map]
  rfl

theorem longForm_eq (obs : List Obs) :
    longForm obs = (colsOf (cohortObs obs)).flatMap (fun p =>
      (axisOf (cohortObs obs)).map
        (fun t => (t, p, emittedAt (cohortObs obs) p t))) := by
  rw [longForm]
  apply flatMap_congr_left
  intro p _
  rw [clampedCol_eq, zip_self_map, List.map_map]
  rfl

theorem mem_colsOf (l : List Obs) (p : String) :
    p ∈ colsOf l ↔ ∃ o ∈ l, o.name = p :=
  mem_groupNames l p

theorem mem_longForm (obs : List Obs) (t : Int) (p : String) (x : Option Int) :
    (t, p, x) ∈ longForm obs ↔
      p ∈ colsOf (cohortObs obs) ∧ t ∈ axisOf (cohortObs obs) ∧
        x = emittedAt (cohortObs obs) p t := by
  rw [longForm_eq, List.mem_flatMap]
  constructor
  · rintro ⟨q, hq, hmem⟩
    rcases List.mem_map.mp hmem with ⟨t', ht', heq⟩
    have h1 : t' = t := congrArg Prod.fst heq
    have h2 : q = p := congrArg (fun r : Int × String × Option Int => r.2.1) heq
    have h3 : emittedAt (cohortObs obs) q t' = x :=
      congrArg (fun r : Int × String × Option Int => r.2.2) heq
    subst h1
    subst h2
    exact ⟨hq, ht', h3.symm⟩
  · rintro ⟨hp, ht, hx⟩
    refine ⟨p, hp, List.mem_map.mpr ⟨t, ht, ?_⟩⟩
    rw [hx]

/-- A cohort player's rows in the cohort frame are exactly their rows in
the full frame. -/
theorem obsOf_cohort {obs : List Obs} {p : String}
    (hp : p ∈ colsOf (cohortObs obs)) :
    obsOf (cohortObs obs) p = obsOf obs p := by
  have hptop : p ∈ topNames obs 20 := by
    rcases (mem_groupNames _ p).mp hp with ⟨o, ho, hn⟩
    rcases List.mem_filter.mp ho with ⟨_, hcontains⟩
    rw [← hn]
    exact List.elem_iff.mp hcontains
  rw [cohortObs, obsOf, List.filter_filter, obsOf]
  apply List.filter_congr
  intro o _
  by_cases hn : o.name = p
  · have hb : (o.name == p) = true := by simp [hn]
    have hc : (topNames obs 20).contains o.name = true := by
      rw [hn]
      exact List.elem_iff.mpr hptop
    rw [hb, hc, Bool.and_self]
  · have hb : (o.name == p) = false := by simp [hn]
    rw [hb, Bool.false_and]

/-! ### Claim C3 -/

/-- C3, counterexample to the claim as stated, at the concrete input
`obsNeg`: player A's only observation (instant 0, score -5) is emitted as
0, not -5 (the clamp `df_pivot[df_pivot < 0] = 0` rewrites it), and for
player B — first observed at instant 1 — the long-form output does
contain a point at instant 0, carrying a missing score (`melt` keeps the
`NaN` grid cells), rather than the cell being absent. -/
theorem C3_counterexample :
    ((0 : Int), "A", some (-5 : Int)) ∉ longForm obsNeg ∧
      ((0 : Int), "A", some (0 : Int)) ∈ longForm obsNeg ∧
      ((0 : Int), "B", (none : Option Int)) ∈ longForm obsNeg := by
  refine ⟨by decide, by decide, by decide⟩

/-- C3 as amended: for each cohort player and axis instant at or after
the player's first observation, the emitted value is the player's most
recent observation at or before that instant clamped below at zero; for
axis instants strictly before the player's first observation, the
(timestamp, player) pair is still present in the long-form output but
carries a missing score — present-with-missing-value, neither absent nor
zero-filled. -/
theorem C3_forward_fill (obs : List Obs) (p : String) (t : Int)
    (hp : p ∈ colsOf (cohortObs obs)) (ht : t ∈ axisOf (cohortObs obs)) :
    ((∃ o ∈ obs, o.name = p ∧ o.ts ≤ t) →
      ∃ o ∈ obs, o.name = p ∧ o.ts ≤ t ∧
        (∀ o' ∈ obs, o'.name = p → o'.ts ≤ t → o'.ts ≤ o.ts) ∧
        (t, p, some (if o.score < 0 then 0 else o.score)) ∈ longForm obs) ∧
      ((∀ o ∈ obs, o.name = p → t < o.ts) →
        (t, p, (none : Option Int)) ∈ longForm obs ∧
          ∀ v : Int, (t, p, some v) ∉ longForm obs) := by
  have hobs_eq : obsOf (cohortObs obs) p = obsOf obs p := obsOf_cohort hp
  constructor
  · rintro ⟨o1, ho1, hn1, hle1⟩
    have ho1' : o1 ∈ obsOf (cohortObs obs) p := by
      rw [hobs_eq]
      exact (mem_obsOf obs p o1).mpr ⟨ho1, hn1⟩
    rcases filledAt_isSome_of_exists ⟨o1, ho1', hle1⟩ with ⟨v, hv⟩
    have hf := hv
    rw [filledAt] at hf
    cases hm : maxList? (tsUpTo (cohortObs obs) p t) with
    | none =>
      rw [hm] at hf
      have hcontra : (none : Option Int) = some v := hf
      cases hcontra
    | some t0 =>
      rw [hm] at hf
      have hcell : cell (cohortObs obs) p t0 = some v := hf
      rcases (mem_tsUpTo (cohortObs obs) p t t0).mp (maxList?_mem hm)
        with ⟨o2, _, hle2, ht2⟩
      have ht0le : t0 ≤ t := ht2 ▸ hle2
      have hub : ∀ o' ∈ obsOf (cohortObs obs) p, o'.ts ≤ t → o'.ts ≤ t0 := by
        intro o' ho' hle'
        exact le_of_maxList? hm
          ((mem_tsUpTo (cohortObs obs) p t o'.ts).mpr ⟨o', ho', hle', rfl⟩)
      rcases cell_some_spec hcell with ⟨o3, ho3, hts3, hsc3, _⟩
      have ho3obs : o3 ∈ obs ∧ o3.name = p := by
        rw [hobs_eq] at ho3
        exact (mem_obsOf obs p o3).mp ho3
      refine ⟨o3, ho3obs.1, ho3obs.2, ?_, ?_, ?_⟩
      · rw [hts3]
        exact ht0le
      · intro o' ho' hn' hle'
        rw [hts3]
        apply hub
        · rw [hobs_eq]
          exact (mem_obsOf obs p o').mpr ⟨ho', hn'⟩
        · exact hle'
      · rw [mem_longForm]
        refine ⟨hp, ht, ?_⟩
        rw [emittedAt, hv, hsc3]
        rfl
  · intro hall
    have hfn : filledAt (cohortObs obs) p t = none := by
      apply (filledAt_eq_none_iff _ p t).mpr
      intro o ho hle
      rw [hobs_eq] at ho
      rcases (mem_obsOf obs p o).mp ho with ⟨ho1, hn1⟩
      exact absurd hle (not_le_of_lt (hall o ho1 hn1))
    have hemit : emittedAt (cohortObs obs) p t = none := by
      rw [emittedAt, hfn]
      rfl
    constructor
    · rw [mem_longForm]
      exact ⟨hp, ht, hemit.symm⟩
    · intro v hmem
      rcases (mem_longForm obs t p (some v)).mp hmem with ⟨_, _, hx⟩
      rw [hemit] at hx
      cases hx

/-- Witness for C3: at the concrete input `obsNeg`, instant 0 lies before
player B's first observation, and the amended theorem yields the
present-with-missing-value point for B there. -/
theorem C3_witness :
    ((0 : Int), "B", (none : Option Int)) ∈ longForm obsNeg ∧
      ∀ v : Int, ((0 : Int), "B", some v) ∉ longForm obsNeg :=
  (C3_forward_fill obsNeg "B" 0 (by decide) (by decide)).2 (by decide)

theorem mem_toObs_longForm (obs : List Obs) (o : Obs) :
    o ∈ toObs (longForm obs) ↔
      o.name ∈ colsOf (cohortObs obs) ∧ o.ts ∈ axisOf (cohortObs obs) ∧
        emittedAt (cohortObs obs) o.name o.ts = some o.score := by
  rw [toObs, List.mem_filterMap]
  constructor
  · rintro ⟨r, hr, hro⟩
    cases hx : r.2.2 with
    | none =>
      rw [hx] at hro
      cases hro
    | some s =>
      rw [hx] at hro
      have ho : (⟨r.2.1, r.1, s⟩ : Obs) = o := Option.some.inj hro
      have hre : (r.1, r.2.1, some s) = r := by rw [← hx]
      rw [← hre] at hr
      rw [mem_longForm] at hr
      rcases hr with ⟨hp, ht, hx2⟩
      rw [← ho]
      exact ⟨hp, ht, hx2.symm⟩
  · rintro ⟨hp, ht, he⟩
    refine ⟨(o.ts, o.name, some o.score), ?_, rfl⟩
    rw [mem_longForm]
    exact ⟨hp, ht, he.symm⟩

theorem emittedAt_isSome_of_exists {l : List Obs} {p : String} {t : Int}
    (h : ∃ o ∈ obsOf l p, o.ts ≤ t) : ∃ v, emittedAt l p t = some v := by
  rcases filledAt_isSome_of_exists h with ⟨v, hv⟩
  refine ⟨if v < 0 then 0 else v, ?_⟩
  rw [emittedAt, hv]
  rfl

theorem colsOf_toObs_longForm (obs : List Obs) :
    colsOf (toObs (longForm obs)) = colsOf (cohortObs obs) := by
  apply chain'_ltB_ext strLtB_strictOrder
  · exact chain'_sortDedup strLtB_strictOrder _
  · exact chain'_sortDedup strLtB_strictOrder _
  · intro p
    constructor
    · intro hpO2
      rcases (mem_colsOf _ p).mp hpO2 with ⟨o, ho, hn⟩
      rcases (mem_toObs_longForm obs o).mp ho with ⟨hpc, _, _⟩
      rw [← hn]
      exact hpc
    · intro hpl1
      rcases (mem_colsOf _ p).mp hpl1 with ⟨o, ho, hn⟩
      have hoo : o ∈ obsOf (cohortObs obs) p := (mem_obsOf _ p o).mpr ⟨ho, hn⟩
      rcases emittedAt_isSome_of_exists ⟨o, hoo, le_refl o.ts⟩ with ⟨w, hw⟩
      have hmem : (⟨p, o.ts, w⟩ : Obs) ∈ toObs (longForm obs) := by
        rw [mem_toObs_longForm]
        have haxm := ts_mem_axisOf ho
        exact ⟨hpl1, haxm, hw⟩
      exact (mem_colsOf _ p).mpr ⟨⟨p, o.ts, w⟩, hmem, rfl⟩

theorem axisOf_toObs_longForm (obs : List Obs) :
    axisOf (toObs (longForm obs)) = axisOf (cohortObs obs) := by
  apply chain'_ltB_ext intLtB_strictOrder
  · exact chain'_sortDedup intLtB_strictOrder _
  · exact chain'_sortDedup intLtB_strictOrder _
  · intro t
    constructor
    · intro htO2
      rcases (mem_axisOf _ t).mp htO2 with ⟨o, ho, hts⟩
      rcases (mem_toObs_longForm obs o).mp ho with ⟨_, htax, _⟩
      rw [← hts]
      exact htax
    · intro htl1
      rcases (mem_axisOf _ t).mp htl1 with ⟨o, ho, hts⟩
      have hpcol : o.name ∈ colsOf (cohortObs obs) :=
        (mem_colsOf _ o.name).mpr ⟨o, ho, rfl⟩
      have hoo : o ∈ obsOf (cohortObs obs) o.name := (mem_obsOf _ _ o).mpr ⟨ho, rfl⟩
      rcases emittedAt_isSome_of_exists ⟨o, hoo, le_refl o.ts⟩ with ⟨w, hw⟩
      have hmem : (⟨o.name, o.ts, w⟩ : Obs) ∈ toObs (longForm obs) := by
        rw [mem_toObs_longForm]
        have haxm := ts_mem_axisOf ho
        exact ⟨hpcol, haxm, hw⟩
      have hax := ts_mem_axisOf hmem
      rw [← hts]
      exact hax

theorem length_colsOf_cohort_le (obs : List Obs) :
    (colsOf (cohortObs obs)).length ≤ 20 := by
  have hsub : colsOf (cohortObs obs) ⊆ topNames obs 20 := by
    intro p hp
    rcases (mem_colsOf _ p).mp hp with ⟨o, ho, hn⟩
    rcases List.mem_filter.mp ho with ⟨_, hcontains⟩
    rw [← hn]
    exact List.elem_iff.mp hcontains
  have hnodup : (colsOf (cohortObs obs)).Nodup :=
    nodup_sortDedup strLtB_strictOrder _
  have hlen := (List.Nodup.subperm hnodup hsub).length_le
  have htop : (topNames obs 20).length ≤ 20 := by
    rw [topNames, List.length_take]
    exact min_le_left _ _
  exact le_trans hlen htop

/-- When at most 20 players are present, the cohort selection keeps the
whole frame. -/
theorem cohortObs_eq_self {l2 : List Obs} (h : (groupNames l2).length ≤ 20) :
    cohortObs l2 = l2 := by
  rw [cohortObs]
  apply List.filter_eq_self.mpr
  intro o ho
  apply List.elem_iff.mpr
  rw [topNames]
  have hlen : (namesByMaxDesc l2).length ≤ 20 := by
    rw [namesByMaxDesc, length_sortDescBy]
    exact h
  rw [List.take_of_length_le hlen, namesByMaxDesc, mem_sortDescBy]
  exact (mem_groupNames l2 o.name).mpr ⟨o, ho, rfl⟩

/-- Key step: re-reading the long-form output as observations, the
forward-filled value at a grid point equals the first run's emitted
value. -/
theorem filledAt_toObs (obs : List Obs) (p : String) (t : Int)
    (hp : p ∈ colsOf (cohortObs obs)) (ht : t ∈ axisOf (cohortObs obs)) :
    filledAt (toObs (longForm obs)) p t = emittedAt (cohortObs obs) p t := by
  have hmemO2 : ∀ o : Obs, o ∈ obsOf (toObs (longForm obs)) p ↔
      (o.name = p ∧ o.name ∈ colsOf (cohortObs obs) ∧
        o.ts ∈ axisOf (cohortObs obs) ∧
        emittedAt (cohortObs obs) o.name o.ts = some o.score) := by
    intro o
    rw [mem_obsOf, mem_toObs_longForm]
    tauto
  cases hm : maxList? (tsUpTo (toObs (longForm obs)) p t) with
  | none =>
    have hLHS : filledAt (toObs (longForm obs)) p t = none := by
      rw [filledAt, hm]
    rw [hLHS]
    cases he : emittedAt (cohortObs obs) p t with
    | none => rfl
    | some v =>
      exfalso
      have hoin : (⟨p, t, v⟩ : Obs) ∈ obsOf (toObs (longForm obs)) p :=
        (hmemO2 _).mpr ⟨rfl, hp, ht, he⟩
      have htm : t ∈ tsUpTo (toObs (longForm obs)) p t :=
        (mem_tsUpTo _ p t t).mpr ⟨⟨p, t, v⟩, hoin, le_refl t, rfl⟩
      rw [maxList?_eq_none_iff] at hm
      rw [hm] at htm
      cases htm
  | some t0 =>
    have hLHS : filledAt (toObs (longForm obs)) p t = cell (toObs (longForm obs)) p t0 := by
      rw [filledAt, hm]
    rcases (mem_tsUpTo _ p t t0).mp (maxList?_mem hm)
      with ⟨oStar, hoStar, hleStar, htsStar⟩
    rcases (hmemO2 oStar).mp hoStar with ⟨hnStar, _, _, heStar⟩
    rw [hnStar, htsStar] at heStar
    have ht0le : t0 ≤ t := htsStar ▸ hleStar
    have hcell : cell (toObs (longForm obs)) p t0 = some oStar.score := by
      rw [cell]
      apply maxList?_const
      · intro hnil
        have hsc : oStar.score ∈
            ((obsOf (toObs (longForm obs)) p).filter (fun o => o.ts == t0)).map (·.score) :=
          List.mem_map_of_mem _ (List.mem_filter.mpr ⟨hoStar, by simp [htsStar]⟩)
        rw [hnil] at hsc
        cases hsc
      · intro x hx
        rcases List.mem_map.mp hx with ⟨o', ho', hox⟩
        rcases List.mem_filter.mp ho' with ⟨ho'1, ho'2⟩
        rcases (hmemO2 o').mp ho'1 with ⟨hn', _, _, he'⟩
        have hts' : o'.ts = t0 := by simpa using ho'2
        rw [hn', hts'] at he'
        rw [heStar] at he'
        rw [← hox]
        exact (Option.some.inj he').symm
    have hub : ∀ o' ∈ obsOf (cohortObs obs) p, o'.ts ≤ t → o'.ts ≤ t0 := by
      intro o' ho' hle'
      rcases emittedAt_isSome_of_exists ⟨o', ho', le_refl o'.ts⟩ with ⟨w, hw⟩
      have ho2 : (⟨p, o'.ts, w⟩ : Obs) ∈ obsOf (toObs (longForm obs)) p := by
        apply (hmemO2 _).mpr
        have haxm := ts_mem_axisOf (((mem_obsOf _ p o').mp ho').1)
        exact ⟨rfl, hp, haxm, hw⟩
      exact le_of_maxList? hm
        ((mem_tsUpTo _ p t o'.ts).mpr ⟨_, ho2, hle', rfl⟩)
    have hcongr : emittedAt (cohortObs obs) p t = emittedAt (cohortObs obs) p t0 := by
      rw [emittedAt, emittedAt, filledAt_congr (cohortObs obs) p ht0le hub]
    rw [hLHS, hcell, hcongr, heStar]

/-- The clamp is idempotent, so re-emitting an already clamped value is
the identity. -/
theorem emittedAt_toObs (obs : List Obs) (p : String) (t : Int)
    (hp : p ∈ colsOf (cohortObs obs)) (ht : t ∈ axisOf (cohortObs obs)) :
    emittedAt (toObs (longForm obs)) p t = emittedAt (cohortObs obs) p t := by
  rw [emittedAt, filledAt_toObs obs p t hp ht, emittedAt]
  cases hf : filledAt (cohortObs obs) p t with
  | none => rfl
  | some v =>
    show clampCell (clampCell (some v)) = clampCell (some v)
    have h1 : clampCell (some v) = some (if v < 0 then 0 else v) := rfl
    rw [h1]
    have h2 : ¬(if v < 0 then (0 : Int) else v) < 0 := by
      by_cases hv : v < 0
      · rw [if_pos hv]
        omega
      · rw [if_neg hv]
        exact hv
    show some (if (if v < 0 then (0 : Int) else v) < 0 then 0
        else (if v < 0 then (0 : Int) else v)) = some (if v < 0 then (0 : Int) else v)
    rw [if_neg h2]

/-! ### Claim C7 -/

/-- C7: the progression resampler is idempotent — reading its long-form
output back as observations at the same instants (the valued points; a
missing cell carries no observation) and re-running the resampler
reproduces the same long-form output, grid point for grid point. -/
theorem C7_resampler_idempotent (obs : List Obs) :
    longForm (toObs (longForm obs)) = longForm obs := by
  have hcols := colsOf_toObs_longForm obs
  have haxis := axisOf_toObs_longForm obs
  have hlen : (groupNames (toObs (longForm obs))).length ≤ 20 := by
    have hgc : groupNames (toObs (longForm obs)) = colsOf (cohortObs obs) := hcols
    rw [hgc]
    exact length_colsOf_cohort_le obs
  have hco : cohortObs (toObs (longForm obs)) = toObs (longForm obs) :=
    cohortObs_eq_self hlen
  conv_lhs => rw [longForm_eq (toObs (longForm obs))]
  rw [hco, hcols, haxis]
  conv_rhs => rw [longForm_eq obs]
  apply flatMap_congr_left
  intro p hpmem
  apply List.map_congr_left
  intro t htmem
  exact congrArg (fun x => (t, p, x)) (emittedAt_toObs obs p t hpmem htmem)

end Dubs
